import Mathlib

/-!
Verification of the gitstore storage core (C++ sources under src/cpp/src).

The development shallowly embeds the storage engine:

* Git object ids are content addressed: identical content yields the same
  id and distinct content distinct ids.  The embedding therefore identifies
  an object id with the object value itself (`Obj`), so `tree_hash`
  equality is equality of the embedded tree values.
* Byte vectors are `List Nat`; entry names, paths and messages are
  `List Char` (one list element per character of the C++ `std::string`).
* A `git_treebuilder` is a list of entries kept sorted by name, seeded
  from an existing tree; `git_treebuilder_insert` replaces an equally
  named entry, `git_treebuilder_remove` drops it.
* Commit objects live in an append-only store (`RepoState.commits`); a
  newly written commit receives the next fresh index as its id, which
  models writing a new commit object and reading back its id.
* Exceptions become `Except Err`, and functions that mutate the
  repository return the repository state they leave behind (the C++
  throws before touching the ref in the failure branches that matter
  here, which the definitions mirror).
-/

namespace Gitstore

/-- Entry names / path components / messages: one `Char` per byte of the
C++ `std::string`. -/
abbrev Name := List Char

/-- Blob contents (`std::vector<uint8_t>`). -/
abbrev Bytes := List Nat

/-- A normalized path, as its list of segments (the C++ keeps the
slash-joined string and re-splits it on `/`; segments are nonempty and
slash-free, so the two forms are in bijection). -/
abbrev Path := List Name

/-- `MODE_BLOB = 0100644` (vost/types.h). -/
def MODE_BLOB : Nat := 0o100644
/-- `MODE_BLOB_EXEC = 0100755` (vost/types.h). -/
def MODE_BLOB_EXEC : Nat := 0o100755
/-- `MODE_LINK = 0120000` (vost/types.h). -/
def MODE_LINK : Nat := 0o120000
/-- `MODE_TREE = 0040000` (vost/types.h). -/
def MODE_TREE : Nat := 0o040000

/-- Error kinds surfaced across the API (vost/error.h, spec section 7). -/
inductive Err where
  | notFound
  | isADirectory
  | notADirectory
  | permissionDenied
  | staleSnapshot
  | keyNotFound
  | keyExists
  | invalidPath
  | invalidHash
  | invalidRefName
  | batchClosed
  | io
  | git
  deriving DecidableEq, Repr

/-- A git object: blob bytes or a tree of `(name, mode, child)` entries.
Because ids are content addressed, the embedding uses the object value as
its own id. -/
inductive Obj where
  | blob (data : Bytes)
  | tree (entries : List (Name × Nat × Obj))

/-- Tree entry: `(name, mode, child object)`. -/
abbrev TEntry := Name × Nat × Obj

/-- Byte-wise lexicographic order on names (the order `git_treebuilder`
sorts entries by; the claims only need some fixed total order). -/
def nameLt : Name → Name → Bool
  | [], [] => false
  | [], _ :: _ => true
  | _ :: _, [] => false
  | c :: cs, d :: ds =>
    if c.toNat < d.toNat then true
    else if d.toNat < c.toNat then false
    else nameLt cs ds

/-- First entry with the given name (`git_tree_entry_byname` /
`git_treebuilder_get`). -/
def findEntry : List TEntry → Name → Option (Nat × Obj)
  | [], _ => none
  | (n, m, o) :: rest, k => if n = k then some (m, o) else findEntry rest k

/-- `git_treebuilder_insert`: replace the equally named entry, otherwise
insert at the sorted position. -/
def builderInsert : List TEntry → Name → Nat → Obj → List TEntry
  | [], n, m, o => [(n, m, o)]
  | (n₀, m₀, o₀) :: rest, n, m, o =>
    if nameLt n n₀ then (n, m, o) :: (n₀, m₀, o₀) :: rest
    else if n = n₀ then (n, m, o) :: rest
    else (n₀, m₀, o₀) :: builderInsert rest n m o

/-- `git_treebuilder_remove`: drop the entry with the given name (a
missing name is ignored, as the C++ ignores the return code). -/
def builderRemove (b : List TEntry) (n : Name) : List TEntry :=
  b.filter (fun e => e.1 ≠ n)

/-- `entry_at_path` (tree.cpp): walk the segments; intermediate segments
must be tree entries with tree mode; returns `(mode, object)` of the final
entry.  The wrappers handle the empty (root) path separately, as the C++
does. -/
def lookupE : List TEntry → Path → Option (Nat × Obj)
  | _, [] => none
  | entries, s :: rest =>
    match findEntry entries s with
    | none => none
    | some (m, o) =>
      match rest with
      | [] => some (m, o)
      | _ :: _ =>
        if m = MODE_TREE then
          match o with
          | .tree es => lookupE es rest
          | .blob _ => none
        else none

/-- Strict name-sortedness of a tree's entries (true of every tree git
materializes; `git_treebuilder_write` always writes sorted entries). -/
def sortedNames : List TEntry → Bool
  | [] => true
  | [_] => true
  | a :: b :: rest => nameLt a.1 b.1 && sortedNames ((b :: rest : List TEntry))

mutual
/-- Well-formedness of an object: every tree level is strictly sorted. -/
def wfO : Obj → Bool
  | .blob _ => true
  | .tree es => sortedNames es && wfE es

/-- Well-formedness of an entry list: every child is well-formed. -/
def wfE : List TEntry → Bool
  | [] => true
  | (_, _, o) :: rest => wfO o && wfE rest
end

/-- Well-formed tree level: sorted entries with well-formed children. -/
def wfT (es : List TEntry) : Bool := sortedNames es && wfE es

/-!
## Tree rebuilder (`tree::rebuild_tree`, tree.cpp)

The C++ recursion carries the absolute prefix of the current subtree and
re-filters the global write/remove lists by that prefix at every level;
the embedding passes the suffixes relative to the current subtree
instead, which selects exactly the same operations (a path takes part at
depth `d` iff its length exceeds `d` and its first `d` segments equal the
prefix; its suffix is what remains).  The recursion depth is bounded by
the longest path, which the top level supplies as fuel.
-/

/-- Current subtree of a name in the builder: the entries of a tree-mode
entry, otherwise the all-zero sentinel, which seeds an empty builder
(`rebuild_tree` also falls back to an empty builder when the id does not
resolve to a tree). -/
def currentSubtree (b : List TEntry) (n : Name) : List TEntry :=
  match findEntry b n with
  | some (m, .tree es) => if m = MODE_TREE then es else []
  | _ => []

/-- Record a recursion target, keeping the subtree captured at first
encounter (`subtree_writes.find(name) == subtree_writes.end()` guard). -/
def addSub (b : List TEntry) (subs : List (Name × List TEntry)) (n : Name) :
    List (Name × List TEntry) :=
  if (subs.lookup n).isSome then subs else subs ++ [(n, currentSubtree b n)]

/-- First scan of `rebuild_tree`: collect recursion targets from the
writes that go deeper than the current level (the builder is not modified
during this scan). -/
def scanWrites (b : List TEntry) (subs : List (Name × List TEntry)) :
    List (Path × Bytes × Nat) → List (Name × List TEntry)
  | [] => subs
  | (n :: _ :: _, _, _) :: rest => scanWrites b (addSub b subs n) rest
  | _ :: rest => scanWrites b subs rest

/-- Second scan of `rebuild_tree`: apply the removes at this level to the
builder as they are encountered, and collect recursion targets from the
removes that go deeper (reading the builder as left by the earlier
removes of the same scan, as the C++ loop does). -/
def scanRemoves : List TEntry → List (Name × List TEntry) → List Path →
    List TEntry × List (Name × List TEntry)
  | b, subs, [] => (b, subs)
  | b, subs, [] :: rest => scanRemoves b subs rest
  | b, subs, [n] :: rest => scanRemoves (builderRemove b n) subs rest
  | b, subs, (n :: _ :: _) :: rest => scanRemoves b (addSub b subs n) rest

/-- Writes that are leaves of the current level.  The C++ collects them
into a name-keyed `std::map` (later duplicates overwrite) and inserts
them after the subtrees; folding `git_treebuilder_insert` over the list
in order produces the same builder, since insert replaces equally named
entries and distinct names commute. -/
def leafWrites (writes : List (Path × Bytes × Nat)) : List (Name × Bytes × Nat) :=
  writes.filterMap fun w =>
    match w with
    | ([n], v, m) => some (n, v, m)
    | _ => none

/-- The writes a recursion target receives: suffixes of the deeper writes
whose next segment is the target's name. -/
def childWrites (n : Name) (writes : List (Path × Bytes × Nat)) :
    List (Path × Bytes × Nat) :=
  writes.filterMap fun w =>
    match w with
    | (n₀ :: s :: t, v, m) => if n₀ = n then some (s :: t, v, m) else none
    | _ => none

/-- The removes a recursion target receives. -/
def childRemoves (n : Name) (removes : List Path) : List Path :=
  removes.filterMap fun p =>
    match p with
    | n₀ :: s :: t => if n₀ = n then some (s :: t) else none
    | _ => none

/-- One level of `rebuild_tree`: seed the builder, partition the
operations, recurse into the targets (the C++ iterates the name-sorted
`std::map`; the recursion results for distinct names commute, so
first-encounter order builds the same tree), insert the subtree results,
then the leaf writes, and finalize. -/
def rebuildAux : Nat → List TEntry → List (Path × Bytes × Nat) → List Path →
    List TEntry
  | 0, entries, _, _ => entries
  | fuel + 1, entries, writes, removes =>
    let subs₀ := scanWrites entries [] writes
    let br := scanRemoves entries subs₀ removes
    let b₂ := br.2.foldl (fun b e =>
      builderInsert b e.1 MODE_TREE
        (.tree (rebuildAux fuel e.2 (childWrites e.1 writes)
                  (childRemoves e.1 removes)))) br.1
    (leafWrites writes).foldl
      (fun b e => builderInsert b e.1 e.2.2 (.blob e.2.1)) b₂

/-- `tree::rebuild_tree`: apply the writes and removes to the base tree
bottom-up.  The recursion depth never exceeds the longest path, so that
bound serves as fuel. -/
def rebuild_tree (base : List TEntry) (writes : List (Path × Bytes × Nat))
    (removes : List Path) : List TEntry :=
  let fuel := ((writes.map fun w => w.1.length) ++ removes.map List.length).foldl
      Nat.max 0 + 1
  rebuildAux fuel base writes removes

/-!
## Order and builder lemmas
-/

theorem nameLt_irrefl (n : Name) : nameLt n n = false := by
  induction n with
  | nil => rfl
  | cons c cs ih => simp [nameLt, ih]

theorem nameLt_asymm {a b : Name} (h : nameLt a b = true) : nameLt b a = false := by
  induction a generalizing b with
  | nil =>
    cases b with
    | nil => simp [nameLt] at h
    | cons d ds => simp [nameLt]
  | cons c cs ih =>
    cases b with
    | nil => simp [nameLt] at h
    | cons d ds =>
      simp only [nameLt] at h ⊢
      rcases Nat.lt_trichotomy c.toNat d.toNat with h1 | h1 | h1
      · have h2 : ¬ d.toNat < c.toNat := Nat.not_lt.mpr (Nat.le_of_lt h1)
        simp [h1, h2]
      · have h2 : ¬ c.toNat < d.toNat := by omega
        have h3 : ¬ d.toNat < c.toNat := by omega
        simp [h2, h3] at h ⊢
        exact ih h
      · have h2 : ¬ c.toNat < d.toNat := Nat.not_lt.mpr (Nat.le_of_lt h1)
        simp [h1, h2] at h

theorem nameLt_trans {a b c : Name} (h₁ : nameLt a b = true)
    (h₂ : nameLt b c = true) : nameLt a c = true := by
  induction a generalizing b c with
  | nil =>
    cases c with
    | nil =>
      cases b with
      | nil => simp [nameLt] at h₁
      | cons d ds => simp [nameLt] at h₂
    | cons d ds => simp [nameLt]
  | cons x xs ih =>
    cases b with
    | nil => simp [nameLt] at h₁
    | cons y ys =>
      cases c with
      | nil => simp [nameLt] at h₂
      | cons z zs =>
        simp only [nameLt] at h₁ h₂ ⊢
        rcases Nat.lt_trichotomy x.toNat y.toNat with hxy | hxy | hxy <;>
          rcases Nat.lt_trichotomy y.toNat z.toNat with hyz | hyz | hyz
        · simp [Nat.lt_trans hxy hyz]
        · have h3 : x.toNat < z.toNat := by omega
          simp [h3]
        · have h3 : ¬ y.toNat < z.toNat := by omega
          simp [h3, hyz] at h₂
        · have h3 : x.toNat < z.toNat := by omega
          simp [h3]
        · have h3 : ¬ x.toNat < y.toNat := by omega
          have h4 : ¬ y.toNat < x.toNat := by omega
          have h5 : ¬ y.toNat < z.toNat := by omega
          have h6 : ¬ z.toNat < y.toNat := by omega
          have h7 : ¬ x.toNat < z.toNat := by omega
          have h8 : ¬ z.toNat < x.toNat := by omega
          simp [h3, h4] at h₁
          simp [h5, h6] at h₂
          simp [h7, h8]
          exact ih h₁ h₂
        · have h3 : ¬ y.toNat < z.toNat := by omega
          simp [h3, hyz] at h₂
        · have h3 : ¬ x.toNat < y.toNat := by omega
          simp [h3, hxy] at h₁
        · have h3 : ¬ x.toNat < y.toNat := by omega
          simp [h3, hxy] at h₁
        · have h3 : ¬ x.toNat < y.toNat := by omega
          simp [h3, hxy] at h₁

theorem findEntry_mem {b : List TEntry} {n : Name} {m : Nat} {o : Obj}
    (h : findEntry b n = some (m, o)) : (n, m, o) ∈ b := by
  induction b with
  | nil => simp [findEntry] at h
  | cons e rest ih =>
    obtain ⟨n₀, m₀, o₀⟩ := e
    by_cases he : n₀ = n
    · subst he
      simp [findEntry] at h
      simp [h.1, h.2]
    · simp [findEntry, he] at h
      exact List.mem_cons_of_mem _ (ih h)

theorem sortedNames_tail {e : TEntry} {rest : List TEntry}
    (h : sortedNames (e :: rest) = true) : sortedNames rest = true := by
  cases rest with
  | nil => rfl
  | cons f r =>
    simp only [sortedNames, Bool.and_eq_true] at h
    exact h.2

theorem sortedNames_head_lt {e : TEntry} {rest : List TEntry}
    (h : sortedNames (e :: rest) = true) :
    ∀ f ∈ rest, nameLt e.1 f.1 = true := by
  induction rest generalizing e with
  | nil => intro f hf; simp at hf
  | cons g r ih =>
    intro f hf
    simp only [sortedNames, Bool.and_eq_true] at h
    rcases List.mem_cons.mp hf with rfl | hf
    · exact h.1
    · exact nameLt_trans h.1 (ih h.2 f hf)

theorem findEntry_builderInsert_self (b : List TEntry) (n : Name) (m : Nat)
    (o : Obj) : findEntry (builderInsert b n m o) n = some (m, o) := by
  induction b with
  | nil => simp [builderInsert, findEntry]
  | cons e rest ih =>
    obtain ⟨n₀, m₀, o₀⟩ := e
    by_cases hlt : nameLt n n₀
    · simp [builderInsert, hlt, findEntry]
    · by_cases heq : n = n₀
      · simp [builderInsert, hlt, heq, findEntry, nameLt_irrefl]
      · have hne : n₀ ≠ n := fun h => heq h.symm
        simp [builderInsert, hlt, heq, findEntry, hne, ih]

theorem findEntry_builderRemove_self (b : List TEntry) (n : Name) :
    findEntry (builderRemove b n) n = none := by
  induction b with
  | nil => rfl
  | cons e rest ih =>
    obtain ⟨n₀, m₀, o₀⟩ := e
    by_cases he : n₀ = n
    · simpa [builderRemove, he] using ih
    · simpa [builderRemove, he, findEntry] using ih

/-- Re-inserting an entry that is already present with the same mode and
object leaves a sorted builder unchanged. -/
theorem builderInsert_of_findEntry {b : List TEntry} {n : Name} {m : Nat}
    {o : Obj} (hs : sortedNames b = true) (h : findEntry b n = some (m, o)) :
    builderInsert b n m o = b := by
  induction b with
  | nil => simp [findEntry] at h
  | cons e rest ih =>
    obtain ⟨n₀, m₀, o₀⟩ := e
    by_cases he : n₀ = n
    · subst he
      simp [findEntry] at h
      simp [builderInsert, nameLt_irrefl, h.1, h.2]
    · simp [findEntry, he] at h
      have hmem : (n, m, o) ∈ rest := findEntry_mem h
      have hlt : nameLt n₀ n = true := sortedNames_head_lt hs (n, m, o) hmem
      have hnlt : nameLt n n₀ = false := nameLt_asymm hlt
      have hne : n ≠ n₀ := fun hh => he hh.symm
      simp [builderInsert, hnlt, hne, ih (sortedNames_tail hs) h]

/-!
## Behaviour of the rebuilder on a single staged operation

These are the cases the batch accumulator produces for a path it has
staged: exactly one write, or exactly one remove (batch.cpp guarantees at
most one staged action per normalized path).
-/

theorem lookupE_rebuildAux_single_write :
    ∀ (p : Path) (fuel : Nat) (t : List TEntry) (v : Bytes) (m : Nat),
      p ≠ [] → p.length ≤ fuel →
      lookupE (rebuildAux fuel t [(p, v, m)] []) p = some (m, Obj.blob v) := by
  intro p
  induction p with
  | nil => intro fuel t v m h; exact absurd rfl h
  | cons n rest ih =>
    intro fuel t v m _ hfuel
    cases fuel with
    | zero => simp at hfuel
    | succ fuel =>
      cases rest with
      | nil =>
        simp only [rebuildAux, scanWrites, scanRemoves, leafWrites,
          List.filterMap, List.foldl]
        simp [lookupE, findEntry_builderInsert_self]
      | cons s t' =>
        simp only [rebuildAux, scanWrites, scanRemoves, addSub, List.lookup,
          leafWrites, childWrites, childRemoves, List.filterMap, List.foldl,
          Option.isSome, if_pos, List.nil_append]
        simp only [lookupE, findEntry_builderInsert_self, if_pos rfl]
        exact ih fuel _ v m (by simp) (by simpa using Nat.le_of_succ_le_succ hfuel)

theorem lookupE_rebuildAux_single_remove :
    ∀ (p : Path) (fuel : Nat) (t : List TEntry),
      p ≠ [] → p.length ≤ fuel →
      lookupE (rebuildAux fuel t [] [p]) p = none := by
  intro p
  induction p with
  | nil => intro fuel t h; exact absurd rfl h
  | cons n rest ih =>
    intro fuel t _ hfuel
    cases fuel with
    | zero => simp at hfuel
    | succ fuel =>
      cases rest with
      | nil =>
        simp only [rebuildAux, scanWrites, scanRemoves, leafWrites,
          List.filterMap, List.foldl]
        simp [lookupE, findEntry_builderRemove_self]
      | cons s t' =>
        simp only [rebuildAux, scanWrites, scanRemoves, addSub, List.lookup,
          leafWrites, childWrites, childRemoves, List.filterMap, List.foldl,
          Option.isSome, List.nil_append]
        simp only [lookupE, findEntry_builderInsert_self, if_pos rfl]
        exact ih fuel _ (by simp) (by simpa using Nat.le_of_succ_le_succ hfuel)

/-- Children of a well-formed tree level are well-formed. -/
theorem wfT_child {es : List TEntry} {n : Name} {m : Nat} {sub : List TEntry}
    (hwf : wfT es = true) (h : findEntry es n = some (m, Obj.tree sub)) :
    wfT sub = true := by
  have hmem : (n, m, Obj.tree sub) ∈ es := findEntry_mem h
  simp only [wfT, Bool.and_eq_true] at hwf
  have hall : ∀ e ∈ es, wfO e.2.2 = true := by
    have hwe := hwf.2
    clear hwf h hmem
    induction es with
    | nil => intro e he; simp at he
    | cons f r ihr =>
      intro e he
      obtain ⟨n₀, m₀, o₀⟩ := f
      simp only [wfE, Bool.and_eq_true] at hwe
      rcases List.mem_cons.mp he with rfl | he
      · exact hwe.1
      · exact ihr hwe.2 e he
  have hwo := hall _ hmem
  simp only [wfO, Bool.and_eq_true] at hwo
  simp [wfT, hwo.1, hwo.2]

/-- Tree-hash idempotence at the rebuilder level: re-writing a path with
its existing content and mode rebuilds the identical tree. -/
theorem rebuildAux_write_idem :
    ∀ (p : Path) (fuel : Nat) (t : List TEntry) (v : Bytes) (m : Nat),
      p ≠ [] → p.length ≤ fuel → wfT t = true →
      lookupE t p = some (m, Obj.blob v) →
      rebuildAux fuel t [(p, v, m)] [] = t := by
  intro p
  induction p with
  | nil => intro fuel t v m h; exact absurd rfl h
  | cons n rest ih =>
    intro fuel t v m _ hfuel hwf hlook
    cases fuel with
    | zero => simp at hfuel
    | succ fuel =>
      have hsorted : sortedNames t = true := by
        simp only [wfT, Bool.and_eq_true] at hwf
        exact hwf.1
      cases rest with
      | nil =>
        simp only [lookupE] at hlook
        cases hfind : findEntry t n with
        | none => simp [hfind] at hlook
        | some e =>
          obtain ⟨m₀, o₀⟩ := e
          simp [hfind] at hlook
          obtain ⟨h1, h2⟩ := hlook
          subst h1; subst h2
          simp only [rebuildAux, scanWrites, scanRemoves, leafWrites,
            List.filterMap, List.foldl]
          exact builderInsert_of_findEntry hsorted hfind
      | cons s t' =>
        simp only [lookupE] at hlook
        cases hfind : findEntry t n with
        | none => simp [hfind] at hlook
        | some e =>
          obtain ⟨m₀, o₀⟩ := e
          simp only [hfind] at hlook
          by_cases hm : m₀ = MODE_TREE
          · subst hm
            simp only [if_pos rfl] at hlook
            cases o₀ with
            | blob _ => simp at hlook
            | tree sub =>
              simp only at hlook
              have hcw : childWrites n [(n :: s :: t', v, m)] = [(s :: t', v, m)] := by
                simp [childWrites]
              have hcr : childRemoves n ([] : List Path) = [] := rfl
              simp only [rebuildAux, scanWrites, scanRemoves, addSub,
                List.lookup, leafWrites, List.filterMap, List.foldl,
                Option.isSome, List.nil_append]
              rw [hcw, hcr]
              have hcst : currentSubtree t n = sub := by
                simp [currentSubtree, hfind]
              rw [hcst]
              have hsub : rebuildAux fuel sub [(s :: t', v, m)] [] = sub :=
                ih fuel sub v m (by simp)
                  (by simpa using Nat.le_of_succ_le_succ hfuel)
                  (wfT_child hwf hfind) hlook
              rw [hsub]
              exact builderInsert_of_findEntry hsorted hfind
          · simp [hm] at hlook

/-!
## Repository state, commit / CAS engine (`Fs::commit_changes`, fs.cpp)

Commit objects live in an append-only store; a new commit receives the
next free index as its id.  References map full ref names to commit ids;
each ref keeps its reflog most-recent-first (`git_reflog_entry_byindex 0`
is the newest entry), and every `git_reference_set_target` /
`git_reference_create` appends an entry carrying the update message (the
repositories the store opens set `core.logAllRefUpdates = always`).
-/

/-- Full reference name, e.g. `refs/heads/main`. -/
abbrev RefName := List Char

def refsHeads (branch : Name) : RefName := "refs/heads/".data ++ branch

def refsNotes (ns : Name) : RefName := "refs/notes/".data ++ ns

/-- A commit object: root tree entries, first parent (the core only ever
creates zero- or one-parent commits; `none` is the empty parent list),
and message. -/
structure CommitObj where
  tree : List TEntry
  parent : Option Nat
  message : List Char

/-- A reflog entry; `none` models the all-zero id. -/
structure ReflogEntry where
  oldId : Option Nat
  newId : Option Nat
  msg : List Char

structure RepoState where
  commits : List CommitObj
  refs : List (RefName × Nat)
  reflogs : List (RefName × List ReflogEntry)

def refFind (refs : List (RefName × Nat)) (n : RefName) : Option Nat :=
  refs.lookup n

def refSet (refs : List (RefName × Nat)) (n : RefName) (v : Nat) :
    List (RefName × Nat) :=
  if (refs.lookup n).isSome then
    refs.map fun e => if e.1 = n then (n, v) else e
  else refs ++ [(n, v)]

def reflogFind (ls : List (RefName × List ReflogEntry)) (n : RefName) :
    Option (List ReflogEntry) :=
  ls.lookup n

def reflogPush (ls : List (RefName × List ReflogEntry)) (n : RefName)
    (e : ReflogEntry) : List (RefName × List ReflogEntry) :=
  if (ls.lookup n).isSome then
    ls.map fun kv => if kv.1 = n then (n, e :: kv.2) else kv
  else ls ++ [(n, [e])]

/-- Snapshot (`Fs`, fs.cpp): commit id or absent, cached tree or absent,
short ref name, writability.  (The optional change report is not
modelled; no claim concerns it.) -/
structure Fs where
  commit : Option Nat
  tree : Option (List TEntry)
  ref : Option Name
  writable : Bool

/-- `Fs::require_writable`: a snapshot must be writable and ref-bound. -/
def require_writable (s : Fs) : Except Err Name :=
  if s.writable = false then .error .permissionDenied
  else
    match s.ref with
    | none => .error .permissionDenied
    | some r => .ok r

/-- `tree::write_commit`: append a commit object, returning its fresh id
(content addressing with an author timestamp makes every written commit a
new object). -/
def write_commit (st : RepoState) (tre : List TEntry) (parent : Option Nat)
    (message : List Char) : RepoState × Nat :=
  ({ st with commits := st.commits ++ [⟨tre, parent, message⟩] },
   st.commits.length)

/-- Steps 2-4 of `Fs::commit_changes` once the CAS check has passed:
rebuild the tree, create the commit, update the ref (recording a reflog
entry whose old id is the previous tip, or the zero id on create). -/
def commit_changes_apply (st : RepoState) (s : Fs) (refname : RefName)
    (writes : List (Path × Bytes × Nat)) (removes : List Path)
    (message : List Char) : RepoState × Except Err Fs :=
  let base := s.tree.getD []
  let newTree := rebuild_tree base writes removes
  let wc := write_commit st newTree s.commit message
  let st₂ : RepoState :=
    { wc.1 with
      refs := refSet wc.1.refs refname wc.2,
      reflogs := reflogPush wc.1.reflogs refname
        ⟨refFind st.refs refname, some wc.2, message⟩ }
  (st₂, .ok ⟨some wc.2, some newTree, s.ref, true⟩)

/-- `Fs::commit_changes` (fs.cpp): under the repository lock, check that
the branch tip still equals the snapshot's commit id (stale-snapshot
otherwise, with nothing mutated), then rebuild, commit and update the
ref. -/
def commit_changes (st : RepoState) (s : Fs)
    (writes : List (Path × Bytes × Nat)) (removes : List Path)
    (message : List Char) : RepoState × Except Err Fs :=
  match require_writable s with
  | .error e => (st, .error e)
  | .ok r =>
    let refname := refsHeads r
    match refFind st.refs refname with
    | some tip =>
      if s.commit = some tip then
        commit_changes_apply st s refname writes removes message
      else (st, .error .staleSnapshot)
    | none => commit_changes_apply st s refname writes removes message

/-!
## Undo / redo (`Fs::undo`, `Fs::redo`, fs.cpp)
-/

/-- Walk `n` first-parent links (`Fs::undo`'s history walk; a missing
commit object is a git error, a missing parent is not-found). -/
def walk_parents (st : RepoState) (c : Nat) : Nat → Except Err Nat
  | 0 => .ok c
  | n + 1 =>
    match st.commits[c]? with
    | none => .error .git
    | some co =>
      match co.parent with
      | none => .error .notFound
      | some p => walk_parents st p n

def undoMsg (n : Nat) : List Char :=
  "undo: ".data ++ (Nat.repr n).data ++ " commit(s)".data

def redoMsg (n : Nat) : List Char :=
  "redo: ".data ++ (Nat.repr n).data ++ " commit(s)".data

/-- `Fs::undo`: walk back `n` parents, then under the lock verify the
branch tip still matches and point the ref at the target. -/
def undo (st : RepoState) (s : Fs) (n : Nat) : RepoState × Except Err Fs :=
  match require_writable s with
  | .error e => (st, .error e)
  | .ok r =>
    match s.commit with
    | none => (st, .error .notFound)
    | some c =>
      if n = 0 then (st, .ok s)
      else
        match walk_parents st c n with
        | .error e => (st, .error e)
        | .ok target =>
          match st.commits[target]? with
          | none => (st, .error .git)
          | some tco =>
            let refname := refsHeads r
            match refFind st.refs refname with
            | some tip =>
              if s.commit = some tip then
                (⟨st.commits, refSet st.refs refname target,
                  reflogPush st.reflogs refname
                    ⟨some tip, some target, undoMsg n⟩⟩,
                 .ok ⟨some target, some tco.tree, s.ref, true⟩)
              else (st, .error .staleSnapshot)
            | none => (st, .error .git)

/-- Test whether a reflog message begins with `undo:` or `redo:`
(`entry_msg.substr(0, 5)` comparison in `Fs::redo`). -/
def undoRedoMsg (msg : List Char) : Bool :=
  msg.take 5 == "undo:".data || msg.take 5 == "redo:".data

/-- The reflog scan of `Fs::redo`: walk the entries most-recent-first;
an undo/redo entry whose new id equals the cursor and whose old id is
non-zero supplies the next cursor and counts as one step; the loop stops
once `n` steps are found. -/
def redo_scan (n : Nat) : List ReflogEntry → Option Nat → Nat →
    Option Nat × Nat
  | [], cur, found => (cur, found)
  | e :: rest, cur, found =>
    if n ≤ found then (cur, found)
    else if undoRedoMsg e.msg && e.newId == cur then
      match e.oldId with
      | some o => redo_scan n rest (some o) (found + 1)
      | none => redo_scan n rest cur found
    else redo_scan n rest cur found

/-- `Fs::redo`: scan the branch reflog for `n` redo steps, then under the
lock verify the tip still matches the snapshot and point the ref at the
final target. -/
def redo (st : RepoState) (s : Fs) (n : Nat) : RepoState × Except Err Fs :=
  match require_writable s with
  | .error e => (st, .error e)
  | .ok r =>
    if n = 0 then (st, .ok s)
    else
      let refname := refsHeads r
      match reflogFind st.reflogs refname with
      | none => (st, .error .notFound)
      | some entries =>
        let sc := redo_scan n entries s.commit 0
        if sc.2 < n then (st, .error .notFound)
        else
          match sc.1 with
          | none => (st, .error .git)
          | some target =>
            match st.commits[target]? with
            | none => (st, .error .git)
            | some tco =>
              match refFind st.refs refname with
              | some tip =>
                if s.commit = some tip then
                  (⟨st.commits, refSet st.refs refname target,
                    reflogPush st.reflogs refname
                      ⟨some tip, some target, redoMsg n⟩⟩,
                   .ok ⟨some target, some tco.tree, s.ref, true⟩)
                else (st, .error .staleSnapshot)
              | none => (st, .error .git)

/-- Replace-or-append update of a unique-key association list, looked up
at the updated key. -/
theorem lookup_update_self {β : Type} (l : List (RefName × β)) (n : RefName)
    (f : RefName × β → RefName × β)
    (hf : ∀ kv, kv.1 = n → (f kv).1 = n)
    (hf' : ∀ kv, kv.1 ≠ n → f kv = kv) :
    (l.lookup n).isSome = true →
    ∃ kv ∈ l, kv.1 = n ∧ (l.map f).lookup n = some (f kv).2 := by
  induction l with
  | nil => intro h; simp [List.lookup] at h
  | cons kv rest ih =>
    intro h
    obtain ⟨k, w⟩ := kv
    by_cases he : k = n
    · subst he
      refine ⟨(k, w), List.mem_cons_self _ _, rfl, ?_⟩
      have h1 : (f (k, w)).1 = k := hf (k, w) rfl
      simp [List.lookup, h1]
    · have hfe : f (k, w) = (k, w) := hf' (k, w) (by simpa using he)
      have hne : (n == k) = false := beq_eq_false_iff_ne.mpr fun hh => he hh.symm
      simp only [List.lookup, hne] at h
      obtain ⟨kv', hmem, hk, hl⟩ := ih h
      refine ⟨kv', List.mem_cons_of_mem _ hmem, hk, ?_⟩
      simp [List.lookup, hfe, hne, hl]

/-- Appending a fresh key to an association list, looked up at that key. -/
theorem lookup_append_self {β : Type} (l : List (RefName × β)) (n : RefName)
    (v : β) : ¬ (l.lookup n).isSome = true →
    (l ++ [(n, v)]).lookup n = some v := by
  induction l with
  | nil => intro _; simp [List.lookup]
  | cons kv rest ih =>
    intro h
    by_cases he : (n == kv.1)
    · simp [List.lookup, he] at h
    · simp only [List.lookup, he, Bool.false_eq_true] at h
      simp [List.lookup, he, ih h]

theorem refFind_refSet_self (refs : List (RefName × Nat)) (n : RefName)
    (v : Nat) : refFind (refSet refs n v) n = some v := by
  by_cases h : (refs.lookup n).isSome
  · simp only [refSet, refFind, if_pos h]
    obtain ⟨kv, _, hk, hl⟩ :=
      lookup_update_self refs n (fun e => if e.1 = n then (n, v) else e)
        (fun kv hkv => by simp [hkv]) (fun kv hkv => by simp [hkv]) h
    rw [hl, if_pos hk]
  · simp only [refSet, refFind, if_neg h]
    exact lookup_append_self refs n v h

theorem reflogFind_reflogPush_self (ls : List (RefName × List ReflogEntry))
    (n : RefName) (e : ReflogEntry) :
    ∃ old, reflogFind (reflogPush ls n e) n = some (e :: old) := by
  by_cases h : (ls.lookup n).isSome
  · simp only [reflogPush, reflogFind, if_pos h]
    obtain ⟨kv, _, hk, hl⟩ :=
      lookup_update_self ls n (fun kv => if kv.1 = n then (n, e :: kv.2) else kv)
        (fun kv hkv => by simp [hkv]) (fun kv hkv => by simp [hkv]) h
    exact ⟨kv.2, by rw [hl, if_pos hk]⟩
  · simp only [reflogPush, reflogFind, if_neg h]
    exact ⟨[], lookup_append_self ls n [e] h⟩

theorem require_writable_ok {s : Fs} {r : Name}
    (h : require_writable s = .ok r) : s.writable = true ∧ s.ref = some r := by
  unfold require_writable at h
  by_cases hw : s.writable = false
  · simp [hw] at h
  · cases hr : s.ref with
    | none => simp [hw, hr] at h
    | some r' =>
      simp [hw, hr] at h
      subst h
      exact ⟨by simpa using hw, rfl⟩

theorem walk_parents_read {st : RepoState} {c n t : Nat} (hn : 1 ≤ n)
    (h : walk_parents st c n = .ok t) :
    ∃ co, st.commits[c]? = some co := by
  cases n with
  | zero => omega
  | succ n =>
    simp only [walk_parents] at h
    cases hg : st.commits[c]? with
    | none => simp [hg] at h
    | some co => exact ⟨co, rfl⟩

theorem redo_scan_stop (n : Nat) (l : List ReflogEntry) (cur : Option Nat)
    (found : Nat) (h : n ≤ found) : redo_scan n l cur found = (cur, found) := by
  cases l with
  | nil => rfl
  | cons e rest => simp [redo_scan, h]

theorem undoRedoMsg_undoMsg (n : Nat) : undoRedoMsg (undoMsg n) = true := by
  have h : (("undo: ".data ++ (Nat.repr n).data) ++ " commit(s)".data).take 5 =
      "undo:".data := by
    rw [List.append_assoc, List.take_append_of_le_length (by decide)]
    rfl
  simp only [undoRedoMsg, undoMsg, h]
  rw [show ("undo:".data == "undo:".data) = true from by decide]
  simp

/-- The commit id carried by a successful snapshot result. -/
def exceptCommit (x : Except Err Fs) : Option (Option Nat) :=
  match x with
  | .ok f => some f.commit
  | .error _ => none

/-- C1: for every call of `commit_changes` on a writable, ref-bound
snapshot: if `refs/heads/<ref>` exists with a tip different from the
snapshot's commit id, the call fails with stale-snapshot and the whole
state — in particular the branch ref — is left unchanged; if the tip
equals the snapshot's commit id, or the ref does not exist, a new commit
whose parent is the snapshot's commit id (no parent when the snapshot was
empty) is appended to the store and the ref is set to that new commit
id. -/
theorem commit_changes_cas_protocol (st : RepoState) (s : Fs) (r : Name)
    (writes : List (Path × Bytes × Nat)) (removes : List Path)
    (msg : List Char) (hw : s.writable = true) (hr : s.ref = some r) :
    (∀ tip, refFind st.refs (refsHeads r) = some tip → s.commit ≠ some tip →
      commit_changes st s writes removes msg = (st, .error .staleSnapshot)) ∧
    (refFind st.refs (refsHeads r) = s.commit ∨
        refFind st.refs (refsHeads r) = none →
      commit_changes st s writes removes msg =
        ({ commits := st.commits ++
             [⟨rebuild_tree (s.tree.getD []) writes removes, s.commit, msg⟩],
           refs := refSet st.refs (refsHeads r) st.commits.length,
           reflogs := reflogPush st.reflogs (refsHeads r)
             ⟨refFind st.refs (refsHeads r), some st.commits.length, msg⟩ },
         .ok ⟨some st.commits.length,
              some (rebuild_tree (s.tree.getD []) writes removes),
              s.ref, true⟩)) := by
  have hrw : require_writable s = .ok r := by
    simp [require_writable, hw, hr]
  constructor
  · intro tip htip hne
    simp [commit_changes, hrw, htip, hne]
  · intro hok
    cases htip : refFind st.refs (refsHeads r) with
    | some tip =>
      rcases hok with hok | hok
      · rw [htip] at hok
        simp only [commit_changes, hrw, htip, ← hok, if_pos rfl]
        simp [commit_changes_apply, write_commit, htip, ← hok]
      · rw [htip] at hok
        simp at hok
    | none =>
      simp only [commit_changes, hrw, htip]
      simp [commit_changes_apply, write_commit, htip]

/-- Repository used by the C1 witness: two commits, branch `main` at
commit 1. -/
def c1State : RepoState :=
  { commits := [⟨[], none, "Initialize main".data⟩,
                ⟨[], some 0, "write: a".data⟩],
    refs := [(refsHeads "main".data, 1)],
    reflogs := [(refsHeads "main".data,
      [⟨some 0, some 1, "write: a".data⟩,
       ⟨none, some 0, "Initialize main".data⟩])] }

/-- A stale snapshot of `main` (still at commit 0). -/
def c1Stale : Fs := ⟨some 0, some [], some "main".data, true⟩

/-- A fresh snapshot of `main` (at the tip, commit 1). -/
def c1Fresh : Fs := ⟨some 1, some [], some "main".data, true⟩

theorem commit_changes_cas_protocol_witness :
    commit_changes c1State c1Stale [] [] "m".data =
      (c1State, .error .staleSnapshot) ∧
    commit_changes c1State c1Fresh [] [] "m".data =
      ({ commits := c1State.commits ++
           [⟨rebuild_tree (c1Fresh.tree.getD []) [] [], c1Fresh.commit, "m".data⟩],
         refs := refSet c1State.refs (refsHeads "main".data)
           c1State.commits.length,
         reflogs := reflogPush c1State.reflogs (refsHeads "main".data)
           ⟨refFind c1State.refs (refsHeads "main".data),
            some c1State.commits.length, "m".data⟩ },
       .ok ⟨some c1State.commits.length,
            some (rebuild_tree (c1Fresh.tree.getD []) [] []),
            c1Fresh.ref, true⟩) :=
  ⟨(commit_changes_cas_protocol c1State c1Stale "main".data [] [] "m".data
      rfl rfl).1 1 rfl (by decide),
   (commit_changes_cas_protocol c1State c1Fresh "main".data [] [] "m".data
      rfl rfl).2 (Or.inl rfl)⟩

/-- C4 (amended): `undo(n)` records exactly one reflog entry, so one redo
step — `redo(1)` — restores the pre-undo commit id: whenever
`undo st s n` succeeds with snapshot `u` and state `st'` (for `n ≥ 1`)
and nothing else touches the branch, `redo st' u 1` succeeds and returns
a snapshot whose commit id equals `s`'s. -/
theorem undo_redo_roundtrip (st st' : RepoState) (s u : Fs) (n : Nat)
    (hn : 1 ≤ n) (h : undo st s n = (st', .ok u)) :
    exceptCommit (redo st' u 1).2 = some s.commit := by
  unfold undo at h
  cases hrw : require_writable s with
  | error e => simp only [hrw] at h; simp at h
  | ok r =>
    simp only [hrw] at h
    obtain ⟨hwrit, href⟩ := require_writable_ok hrw
    cases hc : s.commit with
    | none => simp only [hc] at h; simp at h
    | some c =>
      simp only [hc] at h
      have hn0 : ¬ n = 0 := by omega
      rw [if_neg hn0] at h
      cases hwp : walk_parents st c n with
      | error e => simp only [hwp] at h; simp at h
      | ok target =>
        simp only [hwp] at h
        cases hts : st.commits[target]? with
        | none => simp only [hts] at h; simp at h
        | some tco =>
          simp only [hts] at h
          cases htip : refFind st.refs (refsHeads r) with
          | none => simp only [htip] at h; simp at h
          | some tip =>
            simp only [htip] at h
            by_cases he : (some c : Option Nat) = some tip
            · rw [if_pos he] at h
              have hct : c = tip := by simpa using he
              simp only [Prod.mk.injEq, Except.ok.injEq] at h
              obtain ⟨hst, hu⟩ := h
              subst hst
              subst hu
              -- the branch tip commit object exists (the parent walk read it)
              obtain ⟨co₀, hco₀⟩ := walk_parents_read hn hwp
              -- compute redo on the post-undo state
              have hrwu : require_writable ⟨some target, some tco.tree, s.ref, true⟩ = .ok r := by
                simp [require_writable, href]
              obtain ⟨old, hlog⟩ := reflogFind_reflogPush_self st.reflogs
                (refsHeads r) ⟨some tip, some target, undoMsg n⟩
              have hscan : redo_scan 1 (⟨some tip, some target, undoMsg n⟩ :: old)
                  (some target) 0 = (some tip, 1) := by
                simp [redo_scan, undoRedoMsg_undoMsg, redo_scan_stop]
              have hco₁ : st.commits[tip]? = some co₀ := by
                rw [← hct]; exact hco₀
              simp only [redo, hrwu, hlog]
              rw [if_neg (by omega : ¬ (1 : Nat) = 0)]
              simp [hscan, hco₁, refFind_refSet_self, exceptCommit, hct]
            · rw [if_neg he] at h
              simp at h


/-- The three-commit repository of the C4 scenario: `main` at commit 2,
with the write history in the reflog. -/
def c4State : RepoState :=
  { commits := [⟨[], none, "Initialize main".data⟩,
                ⟨[], some 0, "write: a".data⟩,
                ⟨[], some 1, "write: b".data⟩],
    refs := [(refsHeads "main".data, 2)],
    reflogs := [(refsHeads "main".data,
      [⟨some 1, some 2, "write: b".data⟩,
       ⟨some 0, some 1, "write: a".data⟩,
       ⟨none, some 0, "Initialize main".data⟩])] }

/-- The snapshot `S` of the C4 scenario (branch tip, commit 2). -/
def c4Snap : Fs := ⟨some 2, some [], some "main".data, true⟩

/-- The snapshot `undo(2)` returns (commit 0). -/
def c4Undone : Fs := ⟨some 0, some [], some "main".data, true⟩

theorem undo_redo_roundtrip_witness :
    1 ≤ 2 ∧
    exceptCommit (redo (undo c4State c4Snap 2).1 c4Undone 1).2 =
      some (some 2) :=
  ⟨by omega,
   undo_redo_roundtrip c4State (undo c4State c4Snap 2).1 c4Snap c4Undone 2
     (by omega) rfl⟩

/-- C4 counterexample: the claim says `U.redo(n)` restores `S.commit_id`
after `U = S.undo(n)`; for `n = 2` on a linear three-commit branch the
undo succeeds, but `redo(2)` fails with not-found (the single `undo:`
reflog entry yields only one redo step), so `U.redo(2).commit_id` does
not equal `S.commit_id`. -/
theorem undo_redo_roundtrip_counterexample :
    (undo c4State c4Snap 2).2 = .ok c4Undone ∧
    redo (undo c4State c4Snap 2).1 c4Undone 2 =
      ((undo c4State c4Snap 2).1, .error .notFound) := by
  constructor
  · rfl
  · rfl

/-!
## Path normalization (`paths::normalize`, paths.cpp)
-/

/-- Split on `/`, keeping empty pieces (the C++ loop visits the
substrings between consecutive slashes). -/
def splitSeg : List Char → List Char → List (List Char)
  | [], cur => [cur.reverse]
  | c :: rest, cur =>
    if c = '/' then cur.reverse :: splitSeg rest []
    else splitSeg rest (c :: cur)

/-- Per-segment processing of `normalize`: drop empty segments, reject
`..` with invalid-path, silently drop `.`. -/
def collectSegs : List (List Char) → Except Err (List Name)
  | [] => .ok []
  | s :: rest =>
    if s = [] then collectSegs rest
    else if s = ['.', '.'] then .error .invalidPath
    else if s = ['.'] then collectSegs rest
    else (collectSegs rest).map (s :: ·)

/-- `paths::normalize`: empty input is the root; an input whose segments
all collapse away is the root when it was all slashes and invalid-path
otherwise.  Returns the canonical segment list (the C++ returns them
re-joined with `/`). -/
def normalize (p : List Char) : Except Err Path :=
  if p = [] then .ok []
  else
    match collectSegs (splitSeg p []) with
    | .error e => .error e
    | .ok segs =>
      if segs = [] then
        if p.all (fun c => c = '/') then .ok [] else .error .invalidPath
      else .ok segs

/-!
## `Fs::exists` and `Fs::is_dir` (fs.cpp)
-/

/-- `Fs::exists`: snapshots without a tree answer false before any path
handling; the root always exists; otherwise presence of the entry. -/
def fs_exists (s : Fs) (p : List Char) : Except Err Bool :=
  match s.tree with
  | none => .ok false
  | some t =>
    match normalize p with
    | .error e => .error e
    | .ok segs =>
      if segs = [] then .ok true
      else .ok (lookupE t segs).isSome

/-- `Fs::is_dir`: as `exists`, but the entry must carry tree mode. -/
def fs_is_dir (s : Fs) (p : List Char) : Except Err Bool :=
  match s.tree with
  | none => .ok false
  | some t =>
    match normalize p with
    | .error e => .error e
    | .ok segs =>
      if segs = [] then .ok true
      else
        match lookupE t segs with
        | none => .ok false
        | some (m, _) => .ok (decide (m = MODE_TREE))

/-- Whether a call returned a value rather than raising. -/
def neverRaises (x : Except Err Bool) : Bool :=
  match x with
  | .ok _ => true
  | .error _ => false

/-!
## Batch accumulator (`Batch`, batch.cpp)
-/

structure Batch where
  fs : Fs
  message : Option (List Char)
  operation : Option (List Char)
  writes : List (Path × Bytes × Nat)
  removes : List Path
  closed : Bool

/-- `Fs::batch` / the `Batch` constructor: empty staging lists, open. -/
def batch0 (s : Fs) (message operation : Option (List Char)) : Batch :=
  ⟨s, message, operation, [], [], false⟩

/-- `Batch::write_with_mode`: drop the path from the removes, drop any
previous write for the same normalized path, append the new write. -/
def Batch.write_with_mode (b : Batch) (path : List Char) (data : Bytes)
    (mode : Nat) : Except Err Batch :=
  if b.closed then .error .batchClosed
  else
    match normalize path with
    | .error e => .error e
    | .ok norm =>
      .ok { b with
        removes := b.removes.filter (fun r => r ≠ norm),
        writes := b.writes.filter (fun w => w.1 ≠ norm) ++ [(norm, data, mode)] }

/-- `Batch::write`: default mode is `MODE_BLOB`. -/
def Batch.write (b : Batch) (path : List Char) (data : Bytes) :
    Except Err Batch :=
  b.write_with_mode path data MODE_BLOB

/-- `Batch::remove`: drop any pending write for the path, append it to
the removes unless already present. -/
def Batch.remove (b : Batch) (path : List Char) : Except Err Batch :=
  if b.closed then .error .batchClosed
  else
    match normalize path with
    | .error e => .error e
    | .ok norm =>
      .ok { b with
        writes := b.writes.filter (fun w => w.1 ≠ norm),
        removes := if norm ∈ b.removes then b.removes
                   else b.removes ++ [norm] }

/-- The auto-generated commit message of `Batch::commit`. -/
def batchMsg (b : Batch) : List Char :=
  match b.message with
  | some m => m
  | none =>
    let op := b.operation.getD "batch".data
    if b.writes ≠ [] ∧ b.removes = [] then
      op ++ ": write ".data ++ (Nat.repr b.writes.length).data ++ " file(s)".data
    else if b.writes = [] ∧ b.removes ≠ [] then
      op ++ ": remove ".data ++ (Nat.repr b.removes.length).data ++ " file(s)".data
    else
      op ++ ": ".data ++ (Nat.repr b.writes.length).data ++ " write(s), ".data ++
        (Nat.repr b.removes.length).data ++ " remove(s)".data

/-- `Batch::commit`: check the batch is open, mark it closed *before*
delegating, then delegate to the commit engine with the accumulated
lists. -/
def Batch.commit (b : Batch) (st : RepoState) :
    Batch × RepoState × Except Err Fs :=
  if b.closed then (b, st, .error .batchClosed)
  else
    let b₂ : Batch := { b with closed := true }
    let res := commit_changes st b.fs b.writes b.removes (batchMsg b)
    (b₂, res.1, res.2)

/-- C10: when `Batch::commit` propagates an error from the commit engine
(stale-snapshot, say), the batch was already marked closed, so every
subsequent write, remove or commit on it fails with batch-closed. -/
theorem batch_commit_closes (b : Batch) (st : RepoState) (e : Err)
    (p q : List Char) (dat : Bytes) (mo : Nat)
    (hopen : b.closed = false) (herr : (b.commit st).2.2 = .error e) :
    (b.commit st).1.closed = true ∧
    ((b.commit st).1).write_with_mode p dat mo = .error .batchClosed ∧
    ((b.commit st).1).write p dat = .error .batchClosed ∧
    ((b.commit st).1).remove q = .error .batchClosed ∧
    (((b.commit st).1).commit st).2.2 = .error .batchClosed := by
  have hb : (b.commit st).1 = { b with closed := true } := by
    simp [Batch.commit, hopen]
  refine ⟨by rw [hb], ?_, ?_, ?_, ?_⟩
  · rw [hb]; simp [Batch.write_with_mode]
  · rw [hb]; simp [Batch.write, Batch.write_with_mode]
  · rw [hb]; simp [Batch.remove]
  · rw [hb]; simp [Batch.commit]

/-- The C10 witness batch: staged on a stale snapshot of `c1State`, so
its commit propagates stale-snapshot. -/
def c10Batch : Batch := batch0 c1Stale none none

theorem batch_commit_closes_witness :
    c10Batch.closed = false ∧
    (c10Batch.commit c1State).2.2 = .error .staleSnapshot ∧
    (c10Batch.commit c1State).1.closed = true ∧
    ((c10Batch.commit c1State).1).write_with_mode "f".data [1] MODE_BLOB =
      .error .batchClosed ∧
    ((c10Batch.commit c1State).1).write "f".data [1] = .error .batchClosed ∧
    ((c10Batch.commit c1State).1).remove "f".data = .error .batchClosed ∧
    (((c10Batch.commit c1State).1).commit c1State).2.2 =
      .error .batchClosed := by
  refine ⟨rfl, rfl, ?_⟩
  have h := batch_commit_closes c10Batch c1State .staleSnapshot
    "f".data "f".data [1] MODE_BLOB rfl rfl
  exact ⟨h.1, h.2.1, h.2.2.1, h.2.2.2.1, h.2.2.2.2⟩

/-!
## Batch last-write-wins (interleavings of `write(p, ·)` / `remove(p)`)
-/

/-- A staged call at a fixed path: `Batch::write` (default mode) or
`Batch::remove`. -/
inductive BatchOp where
  | write (v : Bytes)
  | remove

def stage_at (p : List Char) (b : Batch) : BatchOp → Except Err Batch
  | .write v => b.write p v
  | .remove => b.remove p

def stage_all (p : List Char) (b : Batch) : List BatchOp → Except Err Batch
  | [] => .ok b
  | op :: rest =>
    match stage_at p b op with
    | .error e => .error e
    | .ok b₂ => stage_all p b₂ rest

/-- Stage a sequence of calls at one path on a fresh batch, then commit
it. -/
def run_batch (st : RepoState) (s : Fs) (message operation : Option (List Char))
    (p : List Char) (ops : List BatchOp) : Except Err Fs :=
  match stage_all p (batch0 s message operation) ops with
  | .error e => .error e
  | .ok bf => (bf.commit st).2.2

/-- The committed state a successful result observes at a path. -/
def committed_at (x : Except Err Fs) (segs : Path) :
    Option (Option (Nat × Obj)) :=
  match x with
  | .ok f => some (lookupE (f.tree.getD []) segs)
  | .error _ => none

/-- Invariant of a batch that has only ever been staged at `segs`. -/
def stagedInv (segs : Path) (b : Batch) : Prop :=
  b.closed = false ∧
  (b.writes = [] ∨ ∃ v, b.writes = [(segs, v, MODE_BLOB)]) ∧
  (b.removes = [] ∨ b.removes = [segs])

theorem stage_write_step {p : List Char} {segs : Path}
    (hp : normalize p = .ok segs) (b : Batch) (hopen : b.closed = false)
    (d : Bytes) :
    b.write p d = .ok { b with
      removes := b.removes.filter (fun r => r ≠ segs),
      writes := b.writes.filter (fun w => w.1 ≠ segs) ++
        [(segs, d, MODE_BLOB)] } := by
  simp [Batch.write, Batch.write_with_mode, hopen, hp]

theorem stage_remove_step {p : List Char} {segs : Path}
    (hp : normalize p = .ok segs) (b : Batch) (hopen : b.closed = false) :
    b.remove p = .ok { b with
      writes := b.writes.filter (fun w => w.1 ≠ segs),
      removes := if segs ∈ b.removes then b.removes
                 else b.removes ++ [segs] } := by
  simp [Batch.remove, hopen, hp]

theorem stagedInv_filters {segs : Path} {b : Batch} (h : stagedInv segs b) :
    b.writes.filter (fun w => w.1 ≠ segs) = [] ∧
    b.removes.filter (fun r => r ≠ segs) = [] ∧
    (if segs ∈ b.removes then b.removes else b.removes ++ [segs]) = [segs] := by
  obtain ⟨_, hw, hr⟩ := h
  refine ⟨?_, ?_, ?_⟩
  · rcases hw with hw | ⟨v, hw⟩ <;> simp [hw]
  · rcases hr with hr | hr <;> simp [hr]
  · rcases hr with hr | hr <;> simp [hr]

theorem stage_all_last {p : List Char} {segs : Path}
    (hp : normalize p = .ok segs) :
    ∀ (ops : List BatchOp) (b : Batch), stagedInv segs b → ops ≠ [] →
    ∃ bf, stage_all p b ops = .ok bf ∧ bf.fs = b.fs ∧ bf.closed = false ∧
      bf.message = b.message ∧
      ((∃ v, ops.getLast? = some (.write v) ∧
          bf.writes = [(segs, v, MODE_BLOB)] ∧ bf.removes = []) ∨
       (ops.getLast? = some .remove ∧ bf.writes = [] ∧ bf.removes = [segs])) := by
  intro ops
  induction ops with
  | nil => intro b _ h; exact absurd rfl h
  | cons op rest ih =>
    intro b hinv _
    obtain ⟨hfil₁, hfil₂, hfil₃⟩ := stagedInv_filters hinv
    cases op with
    | write v =>
      have hstep := stage_write_step hp b hinv.1 v
      rw [hfil₁, hfil₂] at hstep
      have hinv₂ : stagedInv segs
          { b with removes := [], writes := [] ++ [(segs, v, MODE_BLOB)] } :=
        ⟨hinv.1, Or.inr ⟨v, rfl⟩, Or.inl rfl⟩
      cases rest with
      | nil =>
        refine ⟨{ b with removes := [], writes := [] ++ [(segs, v, MODE_BLOB)] },
          ?_, rfl, hinv.1, rfl, Or.inl ⟨v, by simp, rfl, rfl⟩⟩
        simp only [stage_all, stage_at]
        rw [hstep]
      | cons op₂ rest₂ =>
        obtain ⟨bf, h1, h2, h3, h4, h5⟩ := ih _ hinv₂ (by simp)
        refine ⟨bf, ?_, h2, h3, h4, ?_⟩
        · simp only [stage_all, stage_at]
          rw [hstep]
          exact h1
        · rw [List.getLast?_cons_cons]
          exact h5
    | remove =>
      have hstep := stage_remove_step hp b hinv.1
      rw [hfil₁, hfil₃] at hstep
      have hinv₂ : stagedInv segs
          { b with writes := [], removes := [segs] } :=
        ⟨hinv.1, Or.inl rfl, Or.inr rfl⟩
      cases rest with
      | nil =>
        refine ⟨{ b with writes := [], removes := [segs] },
          ?_, rfl, hinv.1, rfl, Or.inr ⟨by simp, rfl, rfl⟩⟩
        simp only [stage_all, stage_at]
        rw [hstep]
      | cons op₂ rest₂ =>
        obtain ⟨bf, h1, h2, h3, h4, h5⟩ := ih _ hinv₂ (by simp)
        refine ⟨bf, ?_, h2, h3, h4, ?_⟩
        · simp only [stage_all, stage_at]
          rw [hstep]
          exact h1
        · rw [List.getLast?_cons_cons]
          exact h5

/-- Success case of `commit_changes` (used by the batch claims): with the
snapshot writable and ref-bound and the CAS pre-image intact, the engine
appends a commit carrying the rebuilt tree and advances the ref. -/
theorem commit_changes_ok_eq (st : RepoState) (s : Fs) (r : Name)
    (writes : List (Path × Bytes × Nat)) (removes : List Path)
    (msg : List Char) (hrw : require_writable s = .ok r)
    (hcas : refFind st.refs (refsHeads r) = s.commit ∨
      refFind st.refs (refsHeads r) = none) :
    commit_changes st s writes removes msg =
      ({ commits := st.commits ++
           [⟨rebuild_tree (s.tree.getD []) writes removes, s.commit, msg⟩],
         refs := refSet st.refs (refsHeads r) st.commits.length,
         reflogs := reflogPush st.reflogs (refsHeads r)
           ⟨refFind st.refs (refsHeads r), some st.commits.length, msg⟩ },
       .ok ⟨some st.commits.length,
            some (rebuild_tree (s.tree.getD []) writes removes),
            s.ref, true⟩) := by
  cases htip : refFind st.refs (refsHeads r) with
  | some tip =>
    rcases hcas with hok | hok
    · rw [htip] at hok
      simp only [commit_changes, hrw, htip, ← hok, if_pos rfl]
      simp [commit_changes_apply, write_commit, htip, ← hok]
    · rw [htip] at hok
      simp at hok
  | none =>
    simp only [commit_changes, hrw, htip]
    simp [commit_changes_apply, write_commit, htip]

theorem lookupE_rebuild_tree_single_write (t : List TEntry) (segs : Path)
    (v : Bytes) (m : Nat) (h : segs ≠ []) :
    lookupE (rebuild_tree t [(segs, v, m)] []) segs = some (m, Obj.blob v) := by
  unfold rebuild_tree
  apply lookupE_rebuildAux_single_write segs _ t v m h
  simp [Nat.le_succ_of_le, Nat.le_max_right]

theorem lookupE_rebuild_tree_single_remove (t : List TEntry) (segs : Path)
    (h : segs ≠ []) :
    lookupE (rebuild_tree t [] [segs]) segs = none := by
  unfold rebuild_tree
  apply lookupE_rebuildAux_single_remove segs _ t h
  simp [Nat.le_succ_of_le, Nat.le_max_right]

/-- C2: for any interleaving of `write(p, vᵢ)` and `remove(p)` staged on
one batch, each write drops `p` from the staged removes and replaces any
earlier staged write for the same normalized path, each remove drops any
pending write for `p` and records `p` in the removes at most once, and
the committed state at `p` is absent when the final staged call was a
remove and exactly the bytes of the final write otherwise. -/
theorem batch_last_write_wins (st : RepoState) (s : Fs) (r : Name)
    (message operation : Option (List Char)) (p : List Char) (segs : Path)
    (ops : List BatchOp) (v : Bytes) (bb bw br : Batch) (d : Bytes)
    (hp : normalize p = .ok segs) (hsegs : segs ≠ [])
    (hw : s.writable = true) (hr : s.ref = some r)
    (hcas : refFind st.refs (refsHeads r) = s.commit ∨
      refFind st.refs (refsHeads r) = none)
    (hbopen : bb.closed = false)
    (hbw : bb.write p d = .ok bw) (hbr : bb.remove p = .ok br) :
    bw.removes.count segs = 0 ∧
    bw.writes.filter (fun w => w.1 = segs) = [(segs, d, MODE_BLOB)] ∧
    br.writes.filter (fun w => w.1 = segs) = [] ∧
    (bb.removes.count segs ≤ 1 → br.removes.count segs = 1) ∧
    (ops.getLast? = some (.write v) →
      committed_at (run_batch st s message operation p ops) segs =
        some (some (MODE_BLOB, Obj.blob v))) ∧
    (ops.getLast? = some .remove →
      committed_at (run_batch st s message operation p ops) segs =
        some none) := by
  have hrw : require_writable s = .ok r := by
    simp [require_writable, hw, hr]
  have hstepw := stage_write_step hp bb hbopen d
  rw [hstepw] at hbw
  have hbw' := Except.ok.inj hbw
  have hstepr := stage_remove_step hp bb hbopen
  rw [hstepr] at hbr
  have hbr' := Except.ok.inj hbr
  -- the committed state, for a nonempty op list
  have hmain : ∀ (hops : ops ≠ []),
      ∃ bf, stage_all p (batch0 s message operation) ops = .ok bf ∧
        bf.fs = s ∧ bf.closed = false ∧
        ((∃ w, ops.getLast? = some (.write w) ∧
            bf.writes = [(segs, w, MODE_BLOB)] ∧ bf.removes = []) ∨
         (ops.getLast? = some .remove ∧ bf.writes = [] ∧ bf.removes = [segs])) := by
    intro hops
    obtain ⟨bf, h1, h2, h3, _, h5⟩ := stage_all_last hp ops
      (batch0 s message operation) ⟨rfl, Or.inl rfl, Or.inl rfl⟩ hops
    exact ⟨bf, h1, h2, h3, h5⟩
  refine ⟨?_, ?_, ?_, ?_, ?_, ?_⟩
  · rw [← hbw']
    simp only [List.count_eq_zero]
    intro hmem
    simp [List.mem_filter] at hmem
  · rw [← hbw']
    simp only [List.filter_append]
    rw [List.filter_filter]
    simp
  · rw [← hbr']
    rw [List.filter_filter]
    simp
  · intro hcount
    rw [← hbr']
    simp only []
    by_cases hmem : segs ∈ bb.removes
    · rw [if_pos hmem]
      have h1 : 1 ≤ bb.removes.count segs := List.one_le_count_iff.mpr hmem
      omega
    · rw [if_neg hmem]
      have h0 : bb.removes.count segs = 0 := List.count_eq_zero.mpr hmem
      simp [List.count_append, h0]
  · intro hlast
    have hops : ops ≠ [] := by
      intro hnil; rw [hnil] at hlast; simp at hlast
    obtain ⟨bf, h1, h2, h3, h5⟩ := hmain hops
    rcases h5 with ⟨w, hl, hws, hrs⟩ | ⟨hl, hws, hrs⟩
    · rw [hlast] at hl
      have hwv : w = v := by
        have := Option.some.inj hl
        cases this
        rfl
      subst hwv
      have hcommit : (bf.commit st).2.2 =
          .ok ⟨some st.commits.length,
               some (rebuild_tree (s.tree.getD []) bf.writes bf.removes),
               s.ref, true⟩ := by
        simp only [Batch.commit, h3, if_neg (by simp : ¬ false = true), h2]
        rw [commit_changes_ok_eq st s r bf.writes bf.removes (batchMsg bf) hrw hcas]
      simp only [run_batch, h1, hcommit, committed_at, Option.getD]
      rw [hws, hrs]
      simp [lookupE_rebuild_tree_single_write _ _ _ _ hsegs]
    · rw [hlast] at hl
      simp at hl
  · intro hlast
    have hops : ops ≠ [] := by
      intro hnil; rw [hnil] at hlast; simp at hlast
    obtain ⟨bf, h1, h2, h3, h5⟩ := hmain hops
    rcases h5 with ⟨w, hl, hws, hrs⟩ | ⟨hl, hws, hrs⟩
    · rw [hlast] at hl
      simp at hl
    · have hcommit : (bf.commit st).2.2 =
          .ok ⟨some st.commits.length,
               some (rebuild_tree (s.tree.getD []) bf.writes bf.removes),
               s.ref, true⟩ := by
        simp only [Batch.commit, h3, if_neg (by simp : ¬ false = true), h2]
        rw [commit_changes_ok_eq st s r bf.writes bf.removes (batchMsg bf) hrw hcas]
      simp only [run_batch, h1, hcommit, committed_at, Option.getD]
      rw [hws, hrs]
      simp [lookupE_rebuild_tree_single_remove _ _ hsegs]

/-- The batch produced by `write "f"` on a fresh batch over `c1Fresh`. -/
def c2AfterWrite : Batch :=
  ⟨c1Fresh, none, none, [([['f']], [7], MODE_BLOB)], [], false⟩

/-- The batch produced by `remove "f"` on a fresh batch over `c1Fresh`. -/
def c2AfterRemove : Batch :=
  ⟨c1Fresh, none, none, [], [[['f']]], false⟩

theorem batch_last_write_wins_witness :
    normalize "f".data = .ok [['f']] ∧
    committed_at (run_batch c1State c1Fresh none none "f".data
        [.write [1], .remove, .write [9]]) [['f']] =
      some (some (MODE_BLOB, Obj.blob [9])) ∧
    committed_at (run_batch c1State c1Fresh none none "f".data
        [.write [1], .remove]) [['f']] = some none :=
  ⟨rfl,
   (batch_last_write_wins c1State c1Fresh "main".data none none "f".data
      [['f']] [.write [1], .remove, .write [9]] [9]
      (batch0 c1Fresh none none) c2AfterWrite c2AfterRemove [7]
      rfl (by simp) rfl rfl (Or.inl rfl) rfl rfl rfl).2.2.2.2.1 rfl,
   (batch_last_write_wins c1State c1Fresh "main".data none none "f".data
      [['f']] [.write [1], .remove] [9]
      (batch0 c1Fresh none none) c2AfterWrite c2AfterRemove [7]
      rfl (by simp) rfl rfl (Or.inl rfl) rfl rfl rfl).2.2.2.2.2 rfl⟩

/-- C8 (amended): on every snapshot that has a tree, `exists("")` and
`is_dir("")` return true; for every well-formed path (one `normalize`
accepts) neither raises, and both return false when the path is absent.
(An empty snapshot — no commit, no tree — returns false even for the
root, which is what forces the amendment.) -/
theorem exists_is_dir_root_total (s : Fs) (t : List TEntry) (p : List Char)
    (segs : Path) (ht : s.tree = some t) (hp : normalize p = .ok segs) :
    fs_exists s [] = .ok true ∧ fs_is_dir s [] = .ok true ∧
    neverRaises (fs_exists s p) = true ∧
    neverRaises (fs_is_dir s p) = true ∧
    (segs ≠ [] → lookupE t segs = none →
      fs_exists s p = .ok false ∧ fs_is_dir s p = .ok false) := by
  have hroot : normalize [] = .ok [] := rfl
  refine ⟨?_, ?_, ?_, ?_, ?_⟩
  · simp [fs_exists, ht, hroot]
  · simp [fs_is_dir, ht, hroot]
  · by_cases hs : segs = []
    · subst hs; simp [fs_exists, ht, hp, neverRaises]
    · simp [fs_exists, ht, hp, hs, neverRaises]
  · by_cases hs : segs = []
    · subst hs; simp [fs_is_dir, ht, hp, neverRaises]
    · simp only [fs_is_dir, ht, hp, if_neg hs]
      cases lookupE t segs with
      | none => simp [neverRaises]
      | some e => simp [neverRaises]
  · intro hs hnone
    constructor
    · simp [fs_exists, ht, hp, hs, hnone]
    · simp [fs_is_dir, ht, hp, hs, hnone]

/-- A snapshot with a (trivial) tree, for the C8 witness. -/
def c8Snap : Fs := ⟨some 1, some [], some "main".data, true⟩

theorem exists_is_dir_root_total_witness :
    fs_exists c8Snap [] = .ok true ∧ fs_is_dir c8Snap [] = .ok true ∧
    neverRaises (fs_exists c8Snap "ghost.txt".data) = true ∧
    neverRaises (fs_is_dir c8Snap "ghost.txt".data) = true ∧
    fs_exists c8Snap "ghost.txt".data = .ok false ∧
    fs_is_dir c8Snap "ghost.txt".data = .ok false := by
  have h := exists_is_dir_root_total c8Snap [] "ghost.txt".data
    ["ghost.txt".data] rfl rfl
  have h5 := h.2.2.2.2 (by simp) rfl
  exact ⟨h.1, h.2.1, h.2.2.1, h.2.2.2.1, h5.1, h5.2⟩

/-- The empty snapshot of a fresh branch (`Fs::empty`: no commit, no
tree). -/
def c8Empty : Fs := ⟨none, none, some "main".data, true⟩

/-- C8 counterexample: the claim says `exists("")` and `is_dir("")` are
true for *every* snapshot, but an empty snapshot (the empty-branch
sentinel of the data model) answers false before looking at the path. -/
theorem exists_is_dir_root_total_counterexample :
    fs_exists c8Empty [] = .ok false ∧ fs_is_dir c8Empty [] = .ok false :=
  ⟨rfl, rfl⟩

/-- C3: writing a path with content and mode identical to the existing
entry rebuilds the identical root tree, so the committed snapshot's
`tree_hash` equals the prior snapshot's (tree ids are content addressed,
so equal trees have equal ids). -/
theorem tree_hash_idempotent (st : RepoState) (s : Fs) (r : Name)
    (t : List TEntry) (segs : Path) (b : Bytes) (m : Nat) (msg : List Char)
    (ht : s.tree = some t) (hwf : wfT t = true) (hsegs : segs ≠ [])
    (hlook : lookupE t segs = some (m, Obj.blob b))
    (hw : s.writable = true) (hr : s.ref = some r)
    (hcas : refFind st.refs (refsHeads r) = s.commit ∨
      refFind st.refs (refsHeads r) = none) :
    rebuild_tree t [(segs, b, m)] [] = t ∧
    (commit_changes st s [(segs, b, m)] [] msg).2 =
      .ok ⟨some st.commits.length, some t, s.ref, true⟩ := by
  have hreb : rebuild_tree t [(segs, b, m)] [] = t := by
    unfold rebuild_tree
    apply rebuildAux_write_idem segs _ t b m hsegs _ hwf hlook
    simp [Nat.le_succ_of_le, Nat.le_max_right]
  refine ⟨hreb, ?_⟩
  have hrw : require_writable s = .ok r := by
    simp [require_writable, hw, hr]
  rw [commit_changes_ok_eq st s r [(segs, b, m)] [] msg hrw hcas]
  simp [ht, hreb]

/-- The single-file tree of the C3 witness. -/
def c3Tree : List TEntry := [(['a'], MODE_BLOB, Obj.blob [1])]

def c3State : RepoState :=
  { commits := [⟨c3Tree, none, "m0".data⟩],
    refs := [(refsHeads "main".data, 0)],
    reflogs := [(refsHeads "main".data, [⟨none, some 0, "m0".data⟩])] }

def c3Snap : Fs := ⟨some 0, some c3Tree, some "main".data, true⟩

theorem tree_hash_idempotent_witness :
    rebuild_tree c3Tree [([['a']], [1], MODE_BLOB)] [] = c3Tree ∧
    (commit_changes c3State c3Snap [([['a']], [1], MODE_BLOB)] []
        "write: a".data).2 =
      .ok ⟨some c3State.commits.length, some c3Tree, c3Snap.ref, true⟩ :=
  tree_hash_idempotent c3State c3Snap "main".data c3Tree [['a']] [1]
    MODE_BLOB "write: a".data rfl (by decide) (by decide) rfl rfl rfl
    (Or.inl rfl)

/-!
## Mirror restore (`mirror::restore`, mirror.cpp)

The ref layer is modelled exactly (enumerated ref maps, the diff, the
short-name resolution, the filter, and the per-ref effect of the
`+name:name` force refspecs of `additive_fetch` / the force creates of
`bundle_import`); URL handling, credentials and packfile transport sit
below the refs and are not modelled — `source_refs` stands for whatever
`get_remote_refs` / `parse_bundle_header` enumerated on the source.
-/

/-- An enumerated ref table (`std::map<std::string, std::string>`). -/
abbrev RefMap := List (RefName × Nat)

structure RefChange where
  ref_name : RefName
  old_target : Option Nat
  new_target : Option Nat

structure MirrorDiff where
  add : List RefChange
  update : List RefChange
  del : List RefChange

def MirrorDiff.in_sync (d : MirrorDiff) : Bool :=
  d.add.isEmpty && d.update.isEmpty && d.del.isEmpty

/-- `mirror::diff_refs`: adds (in source, absent from dest), updates
(present in both with differing ids), deletes (in dest, absent from
source). -/
def diff_refs (src dest : RefMap) : MirrorDiff :=
  { add := src.filterMap fun e =>
      match dest.lookup e.1 with
      | none => some ⟨e.1, none, some e.2⟩
      | some _ => none,
    update := src.filterMap fun e =>
      match dest.lookup e.1 with
      | some v => if v ≠ e.2 then some ⟨e.1, some v, some e.2⟩ else none
      | none => none,
    del := dest.filterMap fun e =>
      if (src.lookup e.1).isSome then none
      else some ⟨e.1, some e.2, none⟩ }

/-- `mirror::resolve_ref_names`: names already under `refs/` pass
through; otherwise the first of `refs/heads/`, `refs/tags/`,
`refs/notes/` that exists among the available refs, defaulting to
`refs/heads/<name>`. -/
def resolve_ref_names (names : List RefName) (available : RefMap) :
    List RefName :=
  names.map fun name =>
    if name.take 5 == "refs/".data then name
    else if (available.lookup ("refs/heads/".data ++ name)).isSome then
      "refs/heads/".data ++ name
    else if (available.lookup ("refs/tags/".data ++ name)).isSome then
      "refs/tags/".data ++ name
    else if (available.lookup ("refs/notes/".data ++ name)).isSome then
      "refs/notes/".data ++ name
    else "refs/heads/".data ++ name

/-- `mirror::is_bundle_path`: the lowercased last seven characters are
`.bundle`. -/
def is_bundle_path (p : List Char) : Bool :=
  if p.length < 7 then false
  else ((p.drop (p.length - 7)).map Char.toLower) == ".bundle".data

/-- The effect of the `+name:name` force refspecs on the local refs:
every selected ref is set to the source's id (`additive_fetch` builds one
such refspec per entry of `to_fetch`; `bundle_import` issues one force
create per entry of `refs_to_import`). -/
def apply_refspecs (to_fetch : RefMap) (local_refs : RefMap) : RefMap :=
  to_fetch.foldl (fun acc e => refSet acc e.1 e.2) local_refs

/-- `mirror::additive_fetch` at the ref level: filter the remote refs
when a filter is given, then force-set each fetched ref; no deletes. -/
def additive_fetch (local_refs remote_refs : RefMap)
    (refs : List RefName) : RefMap :=
  let to_fetch := if refs.isEmpty then remote_refs
    else remote_refs.filter fun e =>
      (resolve_ref_names refs remote_refs).contains e.1
  apply_refspecs to_fetch local_refs

/-- `mirror::bundle_import` at the ref level: select the bundle refs
(all, or the filter resolved against the bundle's table) and force-create
each; local refs not in the bundle are untouched. -/
def bundle_import_refs (local_refs bundle_refs : RefMap)
    (refs : List RefName) : RefMap :=
  let refs_to_import := if refs.isEmpty then bundle_refs
    else bundle_refs.filter fun e =>
      (resolve_ref_names refs bundle_refs).contains e.1
  apply_refspecs refs_to_import local_refs

/-- `mirror::diff_bundle_import`: diff the (filtered) bundle table
against the local refs and clear the deletes. -/
def diff_bundle_import (local_refs bundle_refs : RefMap)
    (refs : List RefName) : MirrorDiff :=
  let filtered := if refs.isEmpty then bundle_refs
    else bundle_refs.filter fun e =>
      (resolve_ref_names refs bundle_refs).contains e.1
  let d := diff_refs filtered local_refs
  { d with del := [] }

/-- `mirror::restore`: bundle sources import the bundle's table; bare
sources compute the remote/local diff, filter it, clear the deletes and
fetch additively.  Returns the reported diff and the local refs after the
call. -/
def restore (local_refs source_refs : RefMap) (src : List Char)
    (refs : List RefName) (format : List Char) (dry_run : Bool) :
    MirrorDiff × RefMap :=
  let use_bundle := format == "bundle".data || is_bundle_path src
  if use_bundle then
    let diff := diff_bundle_import local_refs source_refs refs
    if dry_run then (diff, local_refs)
    else (diff, bundle_import_refs local_refs source_refs refs)
  else
    let diff₀ := diff_refs source_refs local_refs
    let diff₁ :=
      if ¬ refs.isEmpty then
        { diff₀ with
          add := diff₀.add.filter fun rc =>
            (resolve_ref_names refs source_refs).contains rc.ref_name,
          update := diff₀.update.filter fun rc =>
            (resolve_ref_names refs source_refs).contains rc.ref_name }
      else diff₀
    let diff := { diff₁ with del := [] }
    if dry_run then (diff, local_refs)
    else if diff.in_sync then (diff, local_refs)
    else (diff, additive_fetch local_refs source_refs refs)

theorem lookup_map_update {β : Type} (l : List (RefName × β)) (k n : RefName)
    (v : β) (hk : n ≠ k) :
    (l.map fun e => if e.1 = k then (k, v) else e).lookup n = l.lookup n := by
  induction l with
  | nil => rfl
  | cons e rest ih =>
    rw [List.map_cons]
    by_cases hek : e.1 = k
    · rw [if_pos hek]
      have h1 : (n == k) = false := beq_eq_false_iff_ne.mpr hk
      have h2 : (n == e.1) = false := by rw [hek]; exact h1
      simp only [List.lookup, h1, h2]
      exact ih
    · rw [if_neg hek]
      simp only [List.lookup]
      cases hne : (n == e.1) with
      | true => rfl
      | false => exact ih

theorem lookup_append_isSome {β : Type} (l l₂ : List (RefName × β))
    (n : RefName) (h : (l.lookup n).isSome = true) :
    ((l ++ l₂).lookup n).isSome = true := by
  induction l with
  | nil => simp [List.lookup] at h
  | cons e rest ih =>
    simp only [List.cons_append, List.lookup] at h ⊢
    cases hne : (n == e.1) with
    | true => simp
    | false =>
      rw [hne] at h
      exact ih h

theorem refFind_refSet_isSome {a : RefMap} {n k : RefName} {v : Nat}
    (h : (refFind a n).isSome = true) :
    (refFind (refSet a k v) n).isSome = true := by
  by_cases hk : n = k
  · subst hk
    simp [refFind_refSet_self]
  · unfold refFind at h
    unfold refSet refFind
    by_cases hl : (a.lookup k).isSome
    · rw [if_pos hl, lookup_map_update a k n v hk]
      exact h
    · rw [if_neg hl]
      exact lookup_append_isSome a [(k, v)] n h

theorem refFind_apply_refspecs {tf : RefMap} {acc : RefMap} {n : RefName}
    (h : (refFind acc n).isSome = true) :
    (refFind (apply_refspecs tf acc) n).isSome = true := by
  induction tf generalizing acc with
  | nil => exact h
  | cons e rest ih =>
    exact ih (refFind_refSet_isSome h)

/-- C6: `restore` never deletes a local ref — every local ref present
before the call is still present afterwards (its target may change), for
bare-repository and bundle sources, with or without a ref filter — and
the reported `MirrorDiff` contains no delete entries. -/
theorem restore_additive (local_refs source_refs : RefMap) (src : List Char)
    (refs : List RefName) (format : List Char) (dry_run : Bool)
    (n : RefName) (h : (refFind local_refs n).isSome = true) :
    (restore local_refs source_refs src refs format dry_run).1.del = [] ∧
    (refFind (restore local_refs source_refs src refs format dry_run).2
      n).isSome = true := by
  simp only [restore]
  by_cases hub : (format == "bundle".data || is_bundle_path src) = true
  · rw [if_pos hub]
    by_cases hdry : dry_run = true
    · rw [if_pos hdry]
      exact ⟨by simp [diff_bundle_import], h⟩
    · rw [if_neg hdry]
      refine ⟨by simp [diff_bundle_import], ?_⟩
      simp only [bundle_import_refs]
      exact refFind_apply_refspecs h
  · rw [if_neg hub]
    by_cases hdry : dry_run = true
    · rw [if_pos hdry]
      exact ⟨rfl, h⟩
    · rw [if_neg hdry]
      constructor
      · split <;> (try split) <;> rfl
      · split <;> (try split) <;>
          first
            | exact h
            | (simp only [additive_fetch]; exact refFind_apply_refspecs h)

def c6Local : RefMap := [(refsHeads "main".data, 1), (refsHeads "old".data, 5)]

def c6Source : RefMap := [(refsHeads "main".data, 9)]

theorem restore_additive_witness :
    (restore c6Local c6Source "remote".data [] [] false).1.del = [] ∧
    (refFind (restore c6Local c6Source "remote".data [] [] false).2
      (refsHeads "old".data)).isSome = true :=
  restore_additive c6Local c6Source "remote".data [] [] false
    (refsHeads "old".data) rfl

/-!
## Glob matching (`glob::fnmatch` / `glob::glob_match`, glob.cpp)
-/

/-- Skip consecutive `*` characters. -/
def skipStars : List Char → List Char
  | '*' :: rest => skipStars rest
  | p => p

/-- Scan a `[...]` character class body against one character: stop at
`]` (returning the remaining pattern), treat `a-b` with a following
character as a range, otherwise compare literally. -/
def classScan : List Char → Char → Bool → Bool × List Char
  | [], _, acc => (acc, [])
  | ']' :: rest, _, acc => (acc, rest)
  | a :: '-' :: b :: rest, ch, acc =>
    classScan rest ch
      (acc || (decide (a.toNat ≤ ch.toNat) && decide (ch.toNat ≤ b.toNat)))
  | a :: rest, ch, acc => classScan rest ch (acc || ch == a)

theorem skipStars_length_le (p : List Char) :
    (skipStars p).length ≤ p.length := by
  induction p with
  | nil => simp [skipStars]
  | cons c rest ih =>
    by_cases hc : c = '*'
    · subst hc
      calc (skipStars ('*' :: rest)).length = (skipStars rest).length := by
            rw [skipStars]
        _ ≤ rest.length := ih
        _ ≤ ('*' :: rest).length := by simp
    · have : skipStars (c :: rest) = c :: rest := by
        unfold skipStars
        split
        · rename_i heq
          rw [List.cons.injEq] at heq
          exact absurd heq.1 hc
        · rfl
      simp [this]

theorem classScan_length_le (body : List Char) (ch : Char) (acc : Bool) :
    (classScan body ch acc).2.length ≤ body.length := by
  induction body, ch, acc using classScan.induct <;>
    simp_all [classScan] <;> omega

/-!
`glob::fnmatch` (glob.cpp): `*` matches any sequence, `?` any single
character, `[...]` classes with `!` negation and `a-b` ranges; trailing
stars match the empty remainder.  `tryStar` is the inner
`for (k = ni; k <= nlen; ++k)` loop that retries the remaining pattern
at every suffix of the name.
-/
mutual
def fnmatch : List Char → List Char → Bool
  | [], [] => true
  | [], _ :: _ => false
  | p :: prest, [] => (skipStars (p :: prest)).isEmpty
  | '*' :: prest, n :: nrest =>
    if (skipStars prest).isEmpty then true
    else tryStar (skipStars prest) (n :: nrest)
  | '?' :: prest, _ :: nrest => fnmatch prest nrest
  | '[' :: '!' :: prest, nc :: nrest =>
    if (classScan prest nc false).1 == true then false
    else fnmatch (classScan prest nc false).2 nrest
  | '[' :: prest, nc :: nrest =>
    if (classScan prest nc false).1 == false then false
    else fnmatch (classScan prest nc false).2 nrest
  | pc :: prest, nc :: nrest =>
    if pc = nc then fnmatch prest nrest else false
termination_by p n => (p.length, n.length)
decreasing_by
  all_goals simp_wf
  · apply Prod.Lex.left
    have := skipStars_length_le prest
    omega
  · apply Prod.Lex.left
    omega
  · apply Prod.Lex.left
    have := classScan_length_le prest nc false
    omega
  · apply Prod.Lex.left
    have := classScan_length_le prest nc false
    omega
  · apply Prod.Lex.left
    omega

def tryStar : List Char → List Char → Bool
  | p, [] => fnmatch p []
  | p, n :: rest => fnmatch p (n :: rest) || tryStar p rest
termination_by p n => (p.length, n.length + 1)
decreasing_by
  all_goals simp_wf
  · apply Prod.Lex.right
    omega
  · apply Prod.Lex.right
    omega
  · apply Prod.Lex.right
    omega
end

/-- `glob::glob_match`: a name with a leading dot is matched only by a
pattern that itself starts with a dot, or by the pattern `**`. -/
def glob_match (pattern name : List Char) : Bool :=
  match name, pattern with
  | nc :: _, pc :: _ =>
    if nc = '.' ∧ pc ≠ '.' then
      if pattern ≠ ['*', '*'] then false else fnmatch pattern name
    else fnmatch pattern name
  | _, _ => fnmatch pattern name

theorem sizeOf_child_lt {entries : List TEntry} {e : TEntry}
    (h : e ∈ entries) : sizeOf e.2.2 < sizeOf (Obj.tree entries) := by
  induction entries with
  | nil => simp at h
  | cons f rest ih =>
    rcases List.mem_cons.mp h with rfl | h
    · obtain ⟨n, m, o⟩ := e
      simp
      omega
    · have h2 := ih h
      simp at h2 ⊢
      omega

/-- `iglob_recursive` (fs.cpp): `**` first tries the remaining segments
at this level, then descends into every non-dot, non-empty-named
directory with the same segments; an ordinary segment is matched with
`glob_match` against each entry, adding only non-tree leaves when it is
the last segment and recursing into tree entries otherwise.  (The C++
walks tree ids; the embedding recurses on the child object directly, and
a tree-mode entry whose object is not a tree — impossible in a
well-formed store — yields nothing, as the failed tree lookup would.)
Paths are kept as segment lists; the C++ joins them with `/`. -/
def iglob_recursive : Obj → List (List Char) → Path → List Path
  | _, [], _ => []
  | .blob _, _ :: _, _ => []
  | .tree entries, seg :: restSegs, pre =>
    if seg = "**".data then
      iglob_recursive (.tree entries) restSegs pre ++
      (entries.attach.map fun e =>
        if e.1.1 = [] ∨ e.1.1.head? = some '.' then []
        else if e.1.2.1 = MODE_TREE then
          match e.1.2.2 with
          | .tree _ => iglob_recursive e.1.2.2 (seg :: restSegs) (pre ++ [e.1.1])
          | .blob _ => []
        else []).flatten
    else
      (entries.attach.map fun e =>
        if ¬ glob_match seg e.1.1 then []
        else if restSegs.isEmpty then
          if e.1.2.1 ≠ MODE_TREE then [pre ++ [e.1.1]] else []
        else if e.1.2.1 = MODE_TREE then
          match e.1.2.2 with
          | .tree _ => iglob_recursive e.1.2.2 restSegs (pre ++ [e.1.1])
          | .blob _ => []
        else []).flatten
termination_by o segs _ => (sizeOf o, segs.length)
decreasing_by
  · apply Prod.Lex.right
    simp
  · apply Prod.Lex.left
    exact sizeOf_child_lt e.2
  · apply Prod.Lex.left
    exact sizeOf_child_lt e.2

/-- Pattern splitting of `Fs::iglob`: split on `/`, drop empty
segments. -/
def splitPattern (pattern : List Char) : List (List Char) :=
  (splitSeg pattern []).filter (fun s => ¬ s.isEmpty)

/-- `Fs::iglob`: require a tree, split the pattern, traverse. -/
def fs_iglob (s : Fs) (pattern : List Char) : Except Err (List Path) :=
  match s.tree with
  | none => .error .notFound
  | some t =>
    let segments := splitPattern pattern
    if segments.isEmpty then .ok []
    else .ok (iglob_recursive (.tree t) segments [])

/-- The dot guard of `glob_match`: a leading-dot name is rejected unless
the pattern starts with a dot or is exactly `**`. -/
theorem glob_match_dot {pattern name : List Char}
    (hname : name.head? = some '.') (hpat : pattern.head? ≠ some '.')
    (hstar : pattern ≠ ['*', '*']) : glob_match pattern name = false := by
  cases name with
  | nil => simp at hname
  | cons nc nrest =>
    simp only [List.head?_cons, Option.some.injEq] at hname
    subst hname
    cases pattern with
    | nil => simp [glob_match, fnmatch]
    | cons pc prest =>
      have hpc : pc ≠ '.' := by
        intro h
        exact hpat (by simp [h])
      simp [glob_match, hpc, hstar]

theorem nameLt_ne {a b : Name} (h : nameLt a b = true) : a ≠ b := by
  intro he
  subst he
  rw [nameLt_irrefl] at h
  exact absurd h (by simp)

/-- Every member of a well-formed entry list has a well-formed child. -/
theorem wfE_mem {es : List TEntry} {e : TEntry} (hwe : wfE es = true)
    (h : e ∈ es) : wfO e.2.2 = true := by
  induction es with
  | nil => simp at h
  | cons f r ih =>
    obtain ⟨n₀, m₀, o₀⟩ := f
    simp only [wfE, Bool.and_eq_true] at hwe
    rcases List.mem_cons.mp h with rfl | h
    · exact hwe.1
    · exact ih hwe.2 h

/-- In a strictly sorted entry list, `findEntry` at a member's name
returns that member (names are unique). -/
theorem findEntry_of_mem_sorted {es : List TEntry} {e : TEntry}
    (hs : sortedNames es = true) (h : e ∈ es) :
    findEntry es e.1 = some (e.2.1, e.2.2) := by
  induction es with
  | nil => simp at h
  | cons f rest ih =>
    obtain ⟨n, m, o⟩ := f
    rcases List.mem_cons.mp h with rfl | h
    · simp [findEntry]
    · have hlt : nameLt n e.1 = true := sortedNames_head_lt hs e h
      have hne : n ≠ e.1 := nameLt_ne hlt
      simp only [findEntry, if_neg hne]
      exact ih (sortedNames_tail hs) h

theorem sizeOf_obj_pos (o : Obj) : 0 < sizeOf o := by
  cases o <;> simp

/-- No result of the traversal contains a leading-dot segment when no
pattern segment starts with a dot (`**` descends only into non-dot
directories, and `glob_match` blocks dot names for the other
segments). -/
theorem iglob_rec_no_dot :
    ∀ (N : Nat) (o : Obj) (segs : List (List Char)) (pre : Path) (p : Path),
      sizeOf o + segs.length ≤ N →
      (∀ s ∈ segs, s.head? ≠ some '.') →
      (∀ n ∈ pre, n.head? ≠ some '.') →
      p ∈ iglob_recursive o segs pre →
      ∀ n ∈ p, n.head? ≠ some '.' := by
  intro N
  induction N with
  | zero =>
    intro o segs pre p hle
    have := sizeOf_obj_pos o
    omega
  | succ N ih =>
    intro o segs pre p hle hsegs hpre hmem
    cases segs with
    | nil => simp [iglob_recursive] at hmem
    | cons seg restSegs =>
      cases o with
      | blob d => simp [iglob_recursive] at hmem
      | tree entries =>
        rw [iglob_recursive] at hmem
        by_cases hss : seg = "**".data
        · rw [if_pos hss] at hmem
          rcases List.mem_append.mp hmem with hmem | hmem
          · refine ih (.tree entries) restSegs pre p ?_ ?_ hpre hmem
            · simp at hle ⊢
              omega
            · intro s hs
              exact hsegs s (List.mem_cons_of_mem _ hs)
          · rcases List.mem_flatten.mp hmem with ⟨l, hl, hpl⟩
            rcases List.mem_map.mp hl with ⟨e, _, rfl⟩
            by_cases hskip : e.1.1 = [] ∨ e.1.1.head? = some '.'
            · rw [if_pos hskip] at hpl
              simp at hpl
            · rw [if_neg hskip] at hpl
              by_cases hmode : e.1.2.1 = MODE_TREE
              · rw [if_pos hmode] at hpl
                cases hobj : e.1.2.2 with
                | blob d =>
                  rw [hobj] at hpl
                  simp at hpl
                | tree es₂ =>
                  rw [hobj] at hpl
                  refine ih (.tree es₂) (seg :: restSegs) (pre ++ [e.1.1]) p
                    ?_ hsegs ?_ hpl
                  · have hsz := sizeOf_child_lt e.2
                    rw [hobj] at hsz
                    simp at hsz hle ⊢
                    omega
                  · intro n hn
                    rcases List.mem_append.mp hn with hn | hn
                    · exact hpre n hn
                    · push_neg at hskip
                      simp at hn
                      subst hn
                      exact hskip.2
              · rw [if_neg hmode] at hpl
                simp at hpl
        · rw [if_neg hss] at hmem
          rcases List.mem_flatten.mp hmem with ⟨l, hl, hpl⟩
          rcases List.mem_map.mp hl with ⟨e, _, rfl⟩
          by_cases hgm : glob_match seg e.1.1 = true
          · rw [if_neg (not_not_intro hgm)] at hpl
            have hseg : seg.head? ≠ some '.' := hsegs seg (List.mem_cons_self _ _)
            have hdot : e.1.1.head? ≠ some '.' := by
              intro hd
              rw [glob_match_dot hd hseg hss] at hgm
              exact absurd hgm (by simp)
            by_cases hlast : restSegs.isEmpty
            · rw [if_pos hlast] at hpl
              by_cases hmode : e.1.2.1 ≠ MODE_TREE
              · rw [if_pos hmode] at hpl
                simp only [List.mem_singleton] at hpl
                subst hpl
                intro n hn
                rcases List.mem_append.mp hn with hn | hn
                · exact hpre n hn
                · simp at hn
                  subst hn
                  exact hdot
              · rw [if_neg hmode] at hpl
                simp at hpl
            · rw [if_neg hlast] at hpl
              by_cases hmode : e.1.2.1 = MODE_TREE
              · rw [if_pos hmode] at hpl
                cases hobj : e.1.2.2 with
                | blob d =>
                  rw [hobj] at hpl
                  simp at hpl
                | tree es₂ =>
                  rw [hobj] at hpl
                  refine ih (.tree es₂) restSegs (pre ++ [e.1.1]) p ?_ ?_ ?_ hpl
                  · have hsz := sizeOf_child_lt e.2
                    rw [hobj] at hsz
                    simp at hsz hle ⊢
                    omega
                  · intro s hs
                    exact hsegs s (List.mem_cons_of_mem _ hs)
                  · intro n hn
                    rcases List.mem_append.mp hn with hn | hn
                    · exact hpre n hn
                    · simp at hn
                      subst hn
                      exact hdot
              · rw [if_neg hmode] at hpl
                simp at hpl
          · rw [if_pos (by simpa using hgm)] at hpl
            simp at hpl

/-- Every path produced by the traversal extends the prefix and resolves,
in the tree it started from, to an entry whose mode is not `MODE_TREE`:
only leaves (blobs and links) are ever reported. -/
theorem iglob_rec_leaves :
    ∀ (N : Nat) (entries : List TEntry) (segs : List (List Char)) (pre : Path)
      (p : Path),
      sizeOf (Obj.tree entries) + segs.length ≤ N →
      wfT entries = true →
      p ∈ iglob_recursive (.tree entries) segs pre →
      ∃ rel, p = pre ++ rel ∧
        ∃ m obj, lookupE entries rel = some (m, obj) ∧ m ≠ MODE_TREE := by
  intro N
  induction N with
  | zero =>
    intro entries segs pre p hle
    have := sizeOf_obj_pos (.tree entries)
    omega
  | succ N ih =>
    intro entries segs pre p hle hwf hmem
    cases segs with
    | nil => simp [iglob_recursive] at hmem
    | cons seg restSegs =>
      rw [iglob_recursive] at hmem
      have hwf' := hwf
      simp only [wfT, Bool.and_eq_true] at hwf'
      by_cases hss : seg = "**".data
      · rw [if_pos hss] at hmem
        rcases List.mem_append.mp hmem with hmem | hmem
        · refine ih entries restSegs pre p ?_ hwf hmem
          simp at hle ⊢
          omega
        · rcases List.mem_flatten.mp hmem with ⟨l, hl, hpl⟩
          rcases List.mem_map.mp hl with ⟨e, _, rfl⟩
          by_cases hskip : e.1.1 = [] ∨ e.1.1.head? = some '.'
          · rw [if_pos hskip] at hpl
            simp at hpl
          · rw [if_neg hskip] at hpl
            by_cases hmode : e.1.2.1 = MODE_TREE
            · rw [if_pos hmode] at hpl
              cases hobj : e.1.2.2 with
              | blob d =>
                rw [hobj] at hpl
                simp at hpl
              | tree es₂ =>
                rw [hobj] at hpl
                have hwfc : wfT es₂ = true := by
                  have := wfE_mem hwf'.2 e.2
                  rw [hobj] at this
                  simp only [wfO, Bool.and_eq_true] at this
                  simp [wfT, this.1, this.2]
                obtain ⟨rel, hp, m, obj, hlk, hmne⟩ :=
                  ih es₂ (seg :: restSegs) (pre ++ [e.1.1]) p
                    (by
                      have hsz := sizeOf_child_lt e.2
                      rw [hobj] at hsz
                      simp at hsz hle ⊢
                      omega)
                    hwfc hpl
                refine ⟨e.1.1 :: rel, by simp [hp], m, obj, ?_, hmne⟩
                have hrelne : rel ≠ [] := by
                  intro hr
                  rw [hr] at hlk
                  simp [lookupE] at hlk
                have hfe : findEntry entries e.1.1 =
                    some (e.1.2.1, e.1.2.2) :=
                  findEntry_of_mem_sorted hwf'.1 e.2
                rw [hmode, hobj] at hfe
                cases rel with
                | nil => exact absurd rfl hrelne
                | cons r rrest =>
                  simp only [lookupE, hfe, if_pos rfl]
                  exact hlk
            · rw [if_neg hmode] at hpl
              simp at hpl
      · rw [if_neg hss] at hmem
        rcases List.mem_flatten.mp hmem with ⟨l, hl, hpl⟩
        rcases List.mem_map.mp hl with ⟨e, _, rfl⟩
        by_cases hgm : glob_match seg e.1.1 = true
        · rw [if_neg (not_not_intro hgm)] at hpl
          by_cases hlast : restSegs.isEmpty
          · rw [if_pos hlast] at hpl
            by_cases hmode : e.1.2.1 ≠ MODE_TREE
            · rw [if_pos hmode] at hpl
              simp only [List.mem_singleton] at hpl
              subst hpl
              refine ⟨[e.1.1], rfl, e.1.2.1, e.1.2.2, ?_, hmode⟩
              have hfe : findEntry entries e.1.1 =
                  some (e.1.2.1, e.1.2.2) :=
                findEntry_of_mem_sorted hwf'.1 e.2
              simp [lookupE, hfe]
            · rw [if_neg hmode] at hpl
              simp at hpl
          · rw [if_neg hlast] at hpl
            by_cases hmode : e.1.2.1 = MODE_TREE
            · rw [if_pos hmode] at hpl
              cases hobj : e.1.2.2 with
              | blob d =>
                rw [hobj] at hpl
                simp at hpl
              | tree es₂ =>
                rw [hobj] at hpl
                have hwfc : wfT es₂ = true := by
                  have := wfE_mem hwf'.2 e.2
                  rw [hobj] at this
                  simp only [wfO, Bool.and_eq_true] at this
                  simp [wfT, this.1, this.2]
                obtain ⟨rel, hp, m, obj, hlk, hmne⟩ :=
                  ih es₂ restSegs (pre ++ [e.1.1]) p
                    (by
                      have hsz := sizeOf_child_lt e.2
                      rw [hobj] at hsz
                      simp at hsz hle ⊢
                      omega)
                    hwfc hpl
                refine ⟨e.1.1 :: rel, by simp [hp], m, obj, ?_, hmne⟩
                have hrelne : rel ≠ [] := by
                  intro hr
                  rw [hr] at hlk
                  simp [lookupE] at hlk
                have hfe : findEntry entries e.1.1 =
                    some (e.1.2.1, e.1.2.2) :=
                  findEntry_of_mem_sorted hwf'.1 e.2
                rw [hmode, hobj] at hfe
                cases rel with
                | nil => exact absurd rfl hrelne
                | cons r rrest =>
                  simp only [lookupE, hfe, if_pos rfl]
                  exact hlk
            · rw [if_neg hmode] at hpl
              simp at hpl
        · rw [if_pos (by simpa using hgm)] at hpl
          simp at hpl

/-- Concrete store for exercising the glob rules: a dot-directory with a
text file inside, a plain directory with a text file, and a top-level
text file. -/
def c7Entries : List TEntry :=
  [(".hidden".data, MODE_TREE, .tree [("h.txt".data, MODE_BLOB, .blob [9])]),
   ("dir".data, MODE_TREE, .tree [("a.txt".data, MODE_BLOB, .blob [1])]),
   ("top.txt".data, MODE_BLOB, .blob [0])]

/-- C7: glob/iglob dot and leaf rules.  For any pattern segment that does
not itself start with `.` and is not exactly `**`, `glob_match` rejects
every leading-dot name; every path returned by `iglob_recursive` under a
pattern whose segments have no leading dot is free of leading-dot
segments (so `**` skipped the dot directories); and every returned path
resolves in the tree to an entry whose mode is not `MODE_TREE` — the
terminal segment matches leaves only, never trees. -/
theorem iglob_dot_and_leaf_rules
    (pattern name : List Char) (entries : List TEntry)
    (segs : List (List Char)) (p : Path)
    (hname : name.head? = some '.') (hpat : pattern.head? ≠ some '.')
    (hstar : pattern ≠ ['*', '*'])
    (hwf : wfT entries = true)
    (hsegs : ∀ s ∈ segs, s.head? ≠ some '.')
    (hmem : p ∈ iglob_recursive (.tree entries) segs []) :
    glob_match pattern name = false ∧
    (∀ n ∈ p, n.head? ≠ some '.') ∧
    ∃ m obj, lookupE entries p = some (m, obj) ∧ m ≠ MODE_TREE := by
  refine ⟨glob_match_dot hname hpat hstar, ?_, ?_⟩
  · exact iglob_rec_no_dot (sizeOf (Obj.tree entries) + segs.length)
      (.tree entries) segs [] p le_rfl hsegs (by simp) hmem
  · obtain ⟨rel, hp, hrest⟩ :=
      iglob_rec_leaves (sizeOf (Obj.tree entries) + segs.length)
        entries segs [] p le_rfl hwf hmem
    simp only [List.nil_append] at hp
    subst hp
    exact hrest

/-- C7 witness: under pattern `**/*.txt` the traversal of `c7Entries`
returns `top.txt` (among others); the theorem instantiated there shows
the dot name `.hidden` is rejected by `*.txt`, the result has no dot
segments, and it resolves to a non-tree leaf. -/
theorem iglob_dot_and_leaf_rules_witness :
    (∀ s ∈ [['*', '*'], "*.txt".data], s.head? ≠ some '.') ∧
    (glob_match "*.txt".data ".hidden".data = false ∧
     (∀ n ∈ ["top.txt".data], n.head? ≠ some '.') ∧
     ∃ m obj, lookupE c7Entries ["top.txt".data] = some (m, obj) ∧
       m ≠ MODE_TREE) :=
  ⟨by decide,
   iglob_dot_and_leaf_rules "*.txt".data ".hidden".data c7Entries
     [['*', '*'], "*.txt".data] ["top.txt".data]
     (by decide) (by decide) (by decide) (by decide) (by decide)
     (by simp [c7Entries, iglob_recursive, glob_match, fnmatch, tryStar,
               skipStars, classScan, MODE_TREE, MODE_BLOB])⟩

/-!
## Notes namespaces (notes.cpp)

A note namespace keeps one tree under `refs/notes/<ns>`; the embedding
keeps the tree value itself (`Option` for a missing ref).  Note blobs
are `Obj` values (ids being content addressed as everywhere in this
file).
-/

/-- `is_hex40` (notes.cpp): exactly 40 lowercase hex characters. -/
def is_hex40 (s : Name) : Bool :=
  s.length = 40 &&
    s.all (fun c => ('0' ≤ c && c ≤ '9') || ('a' ≤ c && c ≤ 'f'))

/-- `validate_hash`: throws `InvalidHashError` unless `is_hex40`. -/
def validate_hash (h : Name) : Except Err Unit :=
  if is_hex40 h then .ok () else .error .invalidHash

/-- The 2/38 fanout lookup half of `find_note`: prefix directory (tree
mode), then suffix entry inside it (any mode, as the C++ does not check
the inner mode). -/
def find_note_fanout (es : List TEntry) (hash : Name) : Option Obj :=
  match findEntry es (hash.take 2) with
  | some (m, o) =>
    if m = MODE_TREE then
      match o with
      | .tree sub =>
        match findEntry sub (hash.drop 2) with
        | some (_, b) => some b
        | none => none
      | .blob _ => none
    else none
  | none => none

/-- `find_note`: flat 40-char entry first (skipped when its mode is
`MODE_TREE`), then the 2/38 fanout. -/
def find_note (es : List TEntry) (hash : Name) : Option Obj :=
  match findEntry es hash with
  | some (m, o) => if m = MODE_TREE then find_note_fanout es hash else some o
  | none => find_note_fanout es hash

/-- `iter_notes`: every 2-character tree entry is read as a fanout
subtree whose member names complete the hash; any other entry whose name
is 40 hex characters is a flat note. -/
def iter_notes (es : List TEntry) : List (Name × Obj) :=
  (es.map fun e =>
    if e.2.1 = MODE_TREE ∧ e.1.length = 2 then
      match e.2.2 with
      | .tree sub =>
        (sub.map fun se =>
          if is_hex40 (e.1 ++ se.1) then [(e.1 ++ se.1, se.2.2)] else []).flatten
      | .blob _ => []
    else if is_hex40 e.1 then [(e.1, e.2.2)] else []).flatten

/-- One delete step of `build_note_tree`: flat entry first; otherwise the
fanout entry is removed, dropping the 2-char directory when its subtree
becomes empty; a hash found in neither layout raises `KeyNotFoundError`. -/
def note_delete_one (es : List TEntry) (hash : Name) :
    Except Err (List TEntry) :=
  match findEntry es hash with
  | some _ => .ok (builderRemove es hash)
  | none =>
    match findEntry es (hash.take 2) with
    | some (m, o) =>
      if m = MODE_TREE then
        match o with
        | .tree sub =>
          match findEntry sub (hash.drop 2) with
          | some _ =>
            let sub2 := builderRemove sub (hash.drop 2)
            if sub2.length = 0 then .ok (builderRemove es (hash.take 2))
            else .ok (builderInsert es (hash.take 2) MODE_TREE (.tree sub2))
          | none => .error .keyNotFound
        | .blob _ => .error .keyNotFound
      else .error .keyNotFound
    | none => .error .keyNotFound

/-- One write step of `build_note_tree`: an existing fanout entry for the
hash is removed (dropping the 2-char directory when its subtree becomes
empty), then the flat blob-mode entry is inserted. -/
def note_write_one (es : List TEntry) (hash : Name) (b : Obj) :
    List TEntry :=
  let es1 :=
    match findEntry es (hash.take 2) with
    | some (m, o) =>
      if m = MODE_TREE then
        match o with
        | .tree sub =>
          match findEntry sub (hash.drop 2) with
          | some _ =>
            let sub2 := builderRemove sub (hash.drop 2)
            if sub2.length = 0 then builderRemove es (hash.take 2)
            else builderInsert es (hash.take 2) MODE_TREE (.tree sub2)
          | none => es
        | .blob _ => es
      else es
    | none => es
  builderInsert es1 hash MODE_BLOB b

/-- The deletes loop of `build_note_tree`. -/
def note_deletes : List TEntry → List Name → Except Err (List TEntry)
  | es, [] => .ok es
  | es, h :: rest =>
    match note_delete_one es h with
    | .ok es2 => note_deletes es2 rest
    | .error e => .error e

/-- The writes loop of `build_note_tree`. -/
def note_writes : List TEntry → List (Name × Obj) → List TEntry
  | es, [] => es
  | es, (h, b) :: rest => note_writes (note_write_one es h b) rest

/-- `build_note_tree`: start from the base tree (empty when absent),
apply deletes, then writes. -/
def build_note_tree (base : Option (List TEntry))
    (writes : List (Name × Obj)) (deletes : List Name) :
    Except Err (List TEntry) :=
  match note_deletes (base.getD []) deletes with
  | .ok es => .ok (note_writes es writes)
  | .error e => .error e

/-- A notes namespace: the tree of the `refs/notes/<ns>` tip, `none`
when the ref does not exist. -/
structure NotesNS where
  tree : Option (List TEntry)

/-- `NoteNamespace::get`: validate, resolve the tree, find the note. -/
def notes_get (ns : NotesNS) (hash : Name) : Except Err Obj :=
  match validate_hash hash with
  | .error e => .error e
  | .ok _ =>
    match ns.tree with
    | none => .error .keyNotFound
    | some t =>
      match find_note t hash with
      | none => .error .keyNotFound
      | some b => .ok b

/-- `NoteNamespace::set`: validate, rebuild the tree with one flat
write, commit (the commit updates the ref to the new tree). -/
def notes_set (ns : NotesNS) (hash : Name) (b : Obj) :
    Except Err NotesNS :=
  match validate_hash hash with
  | .error e => .error e
  | .ok _ =>
    match build_note_tree ns.tree [(hash, b)] [] with
    | .ok t => .ok ⟨some t⟩
    | .error e => .error e

/-- `NoteNamespace::del`: validate, require an existing tree, rebuild
with one delete. -/
def notes_del (ns : NotesNS) (hash : Name) : Except Err NotesNS :=
  match validate_hash hash with
  | .error e => .error e
  | .ok _ =>
    match ns.tree with
    | none => .error .keyNotFound
    | some t =>
      match build_note_tree (some t) [] [hash] with
      | .ok t2 => .ok ⟨some t2⟩
      | .error e => .error e

/-- `NoteNamespace::has`: validate, then probe `find_note`. -/
def notes_has (ns : NotesNS) (hash : Name) : Except Err Bool :=
  match validate_hash hash with
  | .error e => .error e
  | .ok _ =>
    match ns.tree with
    | none => .ok false
    | some t => .ok (find_note t hash).isSome

/-- Ascending byte order on names (`std::sort` with `operator<`). -/
def nameLe (a b : Name) : Prop := nameLt b a = false

instance : DecidableRel nameLe := fun a b => by
  unfold nameLe
  infer_instance

/-- `NoteNamespace::list`: hashes of `iter_notes`, sorted ascending
(`std::sort` modeled by insertion sort, which produces the same sorted
sequence). -/
def notes_list (ns : NotesNS) : List Name :=
  match ns.tree with
  | none => []
  | some t => List.insertionSort nameLe ((iter_notes t).map Prod.fst)

theorem char_eq_of_toNat_eq {a b : Char} (h : a.toNat = b.toNat) : a = b :=
  Char.eq_of_val_eq (UInt32.ext h)

/-- `nameLt` is connex: two names neither of which is below the other
are equal. -/
theorem nameLt_connex : ∀ {a b : Name}, nameLt a b = false →
    nameLt b a = false → a = b
  | [], [], _, _ => rfl
  | [], _ :: _, h1, _ => by simp [nameLt] at h1
  | _ :: _, [], _, h2 => by simp [nameLt] at h2
  | c :: cs, d :: ds, h1, h2 => by
    simp only [nameLt] at h1 h2
    by_cases hcd : c.toNat < d.toNat
    · rw [if_pos hcd] at h1
      exact absurd h1 (by simp)
    · by_cases hdc : d.toNat < c.toNat
      · rw [if_pos hdc] at h2
        exact absurd h2 (by simp)
      · rw [if_neg hcd, if_neg hdc] at h1
        rw [if_neg hdc, if_neg hcd] at h2
        have hc : c = d := char_eq_of_toNat_eq (by omega)
        have := nameLt_connex h1 h2
        rw [hc, this]

theorem nameLe_total_aux (a b : Name) :
    nameLt b a = false ∨ nameLt a b = false := by
  cases h : nameLt b a with
  | false => exact .inl rfl
  | true => exact .inr (nameLt_asymm h)

instance : IsTotal Name nameLe :=
  ⟨fun a b => nameLe_total_aux a b⟩

instance : IsTrans Name nameLe := by
  refine ⟨fun a b c hab hbc => ?_⟩
  unfold nameLe at hab hbc ⊢
  cases hca : nameLt c a with
  | false => rfl
  | true =>
    cases hab2 : nameLt a b with
    | true =>
      have h3 := nameLt_trans hca hab2
      rw [h3] at hbc
      simp at hbc
    | false =>
      have heq : a = b := nameLt_connex hab2 hab
      subst heq
      rw [hca] at hbc
      simp at hbc

/-- Every sorted `notes_list` result is ascending in byte order. -/
theorem notes_list_sorted (ns : NotesNS) :
    List.Sorted nameLe (notes_list ns) := by
  unfold notes_list
  cases ns.tree with
  | none => exact List.sorted_nil
  | some t => exact List.sorted_insertionSort nameLe _

theorem findEntry_eq_none_iff {es : List TEntry} {n : Name} :
    findEntry es n = none ↔ ∀ e ∈ es, e.1 ≠ n := by
  induction es with
  | nil => simp [findEntry]
  | cons f rest ih =>
    obtain ⟨fn, fm, fo⟩ := f
    simp only [findEntry]
    by_cases h : fn = n
    · rw [if_pos h]
      constructor
      · intro hx
        exact Option.noConfusion hx
      · intro hall
        exact absurd h (hall (fn, fm, fo) (List.mem_cons_self _ _))
    · rw [if_neg h]
      rw [ih]
      constructor
      · intro hall e he
        rcases List.mem_cons.mp he with rfl | he
        · exact h
        · exact hall e he
      · intro hall e he
        exact hall e (List.mem_cons_of_mem _ he)

theorem findEntry_builderInsert_other (es : List TEntry) (n k : Name)
    (m : Nat) (o : Obj) (hne : n ≠ k) :
    findEntry (builderInsert es n m o) k = findEntry es k := by
  induction es with
  | nil => simp [builderInsert, findEntry, hne]
  | cons f rest ih =>
    obtain ⟨fn, fm, fo⟩ := f
    by_cases h1 : nameLt n fn
    · simp [builderInsert, h1, findEntry, hne]
    · by_cases h2 : n = fn
      · subst h2
        simp [builderInsert, h1, findEntry, hne]
      · simp [builderInsert, h1, h2, findEntry, ih]

theorem findEntry_builderRemove_other (es : List TEntry) (n k : Name)
    (hne : n ≠ k) :
    findEntry (builderRemove es n) k = findEntry es k := by
  induction es with
  | nil => rfl
  | cons f rest ih =>
    obtain ⟨fn, fm, fo⟩ := f
    simp only [builderRemove, List.filter_cons] at ih ⊢
    by_cases h : fn = n
    · rw [if_neg (by simp [h])]
      rw [ih]
      subst h
      simp [findEntry, hne]
    · rw [if_pos (by simp [h])]
      simp only [findEntry]
      by_cases hk : fn = k
      · simp [hk]
      · simp only [if_neg hk]
        exact ih

theorem mem_builderInsert {es : List TEntry} {n : Name} {m : Nat}
    {o : Obj} {x : TEntry} (h : x ∈ builderInsert es n m o) :
    x = (n, m, o) ∨ x ∈ es := by
  induction es with
  | nil =>
    simp [builderInsert] at h
    exact .inl h
  | cons f rest ih =>
    obtain ⟨fn, fm, fo⟩ := f
    by_cases h1 : nameLt n fn
    · simp only [builderInsert, if_pos h1] at h
      rcases List.mem_cons.mp h with rfl | h
      · exact .inl rfl
      · exact .inr h
    · by_cases h2 : n = fn
      · simp only [builderInsert, if_neg h1, if_pos h2] at h
        rcases List.mem_cons.mp h with rfl | h
        · exact .inl rfl
        · exact .inr (List.mem_cons_of_mem _ h)
      · simp only [builderInsert, if_neg h1, if_neg h2] at h
        rcases List.mem_cons.mp h with rfl | h
        · exact .inr (List.mem_cons_self _ _)
        · rcases ih h with h | h
          · exact .inl h
          · exact .inr (List.mem_cons_of_mem _ h)

/-- `sortedNames` as a pairwise property (uses transitivity of the
order). -/
theorem sortedNames_iff_pairwise {es : List TEntry} :
    sortedNames es = true ↔
      es.Pairwise (fun a b => nameLt a.1 b.1 = true) := by
  induction es with
  | nil => simp [sortedNames]
  | cons f rest ih =>
    cases rest with
    | nil => simp [sortedNames]
    | cons g r =>
      simp only [sortedNames, Bool.and_eq_true, List.pairwise_cons] at ih ⊢
      constructor
      · rintro ⟨h1, h2⟩
        have hp := ih.mp h2
        refine ⟨?_, hp⟩
        intro x hx
        rcases List.mem_cons.mp hx with rfl | hx
        · exact h1
        · exact nameLt_trans h1 (hp.1 x hx)
      · rintro ⟨h1, h2⟩
        exact ⟨h1 g (List.mem_cons_self _ _), ih.mpr h2⟩

theorem sortedNames_builderRemove {es : List TEntry} (n : Name)
    (hs : sortedNames es = true) :
    sortedNames (builderRemove es n) = true := by
  rw [sortedNames_iff_pairwise] at hs ⊢
  exact List.Pairwise.sublist (List.filter_sublist es) hs

theorem sortedNames_builderInsert {es : List TEntry} (n : Name) (m : Nat)
    (o : Obj) (hs : sortedNames es = true) :
    sortedNames (builderInsert es n m o) = true := by
  rw [sortedNames_iff_pairwise] at hs ⊢
  induction es with
  | nil => simp [builderInsert]
  | cons f rest ih =>
    obtain ⟨fn, fm, fo⟩ := f
    rw [List.pairwise_cons] at hs
    by_cases h1 : nameLt n fn
    · simp only [builderInsert, if_pos h1]
      rw [List.pairwise_cons]
      refine ⟨?_, List.pairwise_cons.mpr hs⟩
      intro x hx
      rcases List.mem_cons.mp hx with rfl | hx
      · exact h1
      · exact nameLt_trans h1 (hs.1 x hx)
    · by_cases h2 : n = fn
      · simp only [builderInsert, if_neg h1, if_pos h2]
        rw [List.pairwise_cons]
        refine ⟨fun x hx => ?_, hs.2⟩
        rw [h2]
        exact hs.1 x hx
      · simp only [builderInsert, if_neg h1, if_neg h2]
        rw [List.pairwise_cons]
        refine ⟨?_, ih hs.2⟩
        intro x hx
        rcases mem_builderInsert hx with rfl | hx
        · show nameLt fn n = true
          cases hfn : nameLt fn n with
          | true => rfl
          | false =>
            exact absurd (nameLt_connex (by simpa using h1) hfn) h2
        · exact hs.1 x hx

theorem iter_notes_cons (e : TEntry) (rest : List TEntry) :
    iter_notes (e :: rest) =
      (if e.2.1 = MODE_TREE ∧ e.1.length = 2 then
        match e.2.2 with
        | .tree sub =>
          (sub.map fun se =>
            if is_hex40 (e.1 ++ se.1) then [(e.1 ++ se.1, se.2.2)]
            else []).flatten
        | .blob _ => []
      else if is_hex40 e.1 then [(e.1, e.2.2)] else []) ++ iter_notes rest := by
  simp [iter_notes]

/-- In a sorted entry list no later entry repeats the head's name. -/
theorem findEntry_tail_none {f : TEntry} {rest : List TEntry}
    (hs : sortedNames (f :: rest) = true) :
    findEntry rest f.1 = none := by
  rw [findEntry_eq_none_iff]
  intro e he hx
  have hlt := sortedNames_head_lt hs e he
  rw [hx] at hlt
  rw [nameLt_irrefl] at hlt
  simp at hlt

theorem find_note_fanout_cons_skip {f : TEntry} {rest : List TEntry}
    {hash : Name} (h : f.1 ≠ hash.take 2) :
    find_note_fanout (f :: rest) hash = find_note_fanout rest hash := by
  obtain ⟨fn, fm, fo⟩ := f
  simp only [find_note_fanout, findEntry, if_neg h]

/-- The fanout-miss condition transfers from a sorted cons to its tail. -/
theorem find_note_fanout_tail_none {f : TEntry} {rest : List TEntry}
    {hash : Name} (hs : sortedNames (f :: rest) = true)
    (hfan : find_note_fanout (f :: rest) hash = none) :
    find_note_fanout rest hash = none := by
  by_cases h2 : f.1 = hash.take 2
  · have hnone : findEntry rest (hash.take 2) = none := by
      rw [← h2]
      exact findEntry_tail_none hs
    simp only [find_note_fanout, hnone]
  · rw [← find_note_fanout_cons_skip h2]
    exact hfan

/-- When the head entry is the fanout directory of `hash` and the fanout
lookup misses, the suffix is absent from the subtree. -/
theorem fanout_sub_none {fn : Name} {fm : Nat} {sub rest : List TEntry}
    {hash : Name} (h2 : fn = hash.take 2) (hm : fm = MODE_TREE)
    (hfan : find_note_fanout ((fn, fm, .tree sub) :: rest) hash = none) :
    findEntry sub (hash.drop 2) = none := by
  simp only [find_note_fanout, findEntry, if_pos h2] at hfan
  rw [if_pos hm] at hfan
  cases hsub : findEntry sub (hash.drop 2) with
  | none => rfl
  | some v =>
    obtain ⟨vm, vo⟩ := v
    rw [hsub] at hfan
    exact Option.noConfusion hfan

/-- Elements of a fanout piece never name `hash` when the directory is
not its prefix or the suffix is absent from the subtree. -/
theorem fan_piece_no_hash {n : Name} {sub : List TEntry} {hash : Name}
    (hn2 : n.length = 2)
    (hcase : n ≠ hash.take 2 ∨ findEntry sub (hash.drop 2) = none) :
    hash ∉ ((sub.map fun se =>
      if is_hex40 (n ++ se.1) then [(n ++ se.1, se.2.2)]
      else []).flatten).map Prod.fst := by
  intro hmem
  simp only [List.mem_map, List.mem_flatten] at hmem
  obtain ⟨p, ⟨l, ⟨se, hse, rfl⟩, hpl⟩, hp⟩ := hmem
  by_cases hhex : is_hex40 (n ++ se.1) = true
  · rw [if_pos hhex] at hpl
    simp only [List.mem_singleton] at hpl
    subst hpl
    simp only at hp
    subst hp
    have htk : (n ++ se.1).take 2 = n := List.take_left' hn2
    have hdr : (n ++ se.1).drop 2 = se.1 := List.drop_left' hn2
    rcases hcase with hcase | hcase
    · exact hcase htk.symm
    · rw [findEntry_eq_none_iff] at hcase
      exact hcase se hse hdr.symm
  · rw [if_neg hhex] at hpl
    simp at hpl

theorem iter_notes_cons_mk (fn : Name) (fm : Nat) (fo : Obj)
    (rest : List TEntry) :
    iter_notes ((fn, fm, fo) :: rest) =
      (if fm = MODE_TREE ∧ fn.length = 2 then
        match fo with
        | .tree sub =>
          (sub.map fun se =>
            if is_hex40 (fn ++ se.1) then [(fn ++ se.1, se.2.2)]
            else []).flatten
        | .blob _ => []
      else if is_hex40 fn then [(fn, fo)] else []) ++ iter_notes rest := by
  simp [iter_notes]

theorem iter_notes_nil : iter_notes [] = [] := by
  simp [iter_notes]

/-- A head entry not named `hash`, with the cons-level fanout lookup
missing, contributes no `hash` key. -/
theorem hash_not_mem_piece {fn : Name} {fm : Nat} {fo : Obj}
    {rest : List TEntry} {hash : Name} (hf1 : fn ≠ hash)
    (hfan : find_note_fanout ((fn, fm, fo) :: rest) hash = none) :
    hash ∉ (iter_notes [(fn, fm, fo)]).map Prod.fst := by
  rw [iter_notes_cons_mk, iter_notes_nil, List.append_nil]
  by_cases hcond : fm = MODE_TREE ∧ fn.length = 2
  · rw [if_pos hcond]
    cases fo with
    | blob d => simp
    | tree sub =>
      refine fan_piece_no_hash hcond.2 ?_
      by_cases h2 : fn = hash.take 2
      · exact .inr (fanout_sub_none h2 hcond.1 hfan)
      · exact .inl h2
  · rw [if_neg hcond]
    by_cases hhex : is_hex40 fn = true
    · rw [if_pos hhex]
      intro hmem
      simp at hmem
      exact hf1 hmem.symm
    · rw [if_neg hhex]
      simp

/-- A hash present in neither layout never appears among the iterated
note keys. -/
theorem hash_not_mem_iter (es : List TEntry) (hash : Name)
    (hs : sortedNames es = true)
    (hflat : findEntry es hash = none)
    (hfan : find_note_fanout es hash = none) :
    hash ∉ (iter_notes es).map Prod.fst := by
  induction es with
  | nil => simp [iter_notes]
  | cons f rest ih =>
    obtain ⟨fn, fm, fo⟩ := f
    have hf1 : fn ≠ hash := by
      intro h
      rw [findEntry_eq_none_iff] at hflat
      exact hflat (fn, fm, fo) (List.mem_cons_self _ _) h
    have hflatr : findEntry rest hash = none := by
      simpa only [findEntry, if_neg hf1] using hflat
    have hfanr : find_note_fanout rest hash = none :=
      find_note_fanout_tail_none hs hfan
    rw [iter_notes_cons_mk, List.map_append]
    intro hmem
    rcases List.mem_append.mp hmem with hmem | hmem
    · have hp := hash_not_mem_piece hf1 hfan
      rw [iter_notes_cons_mk, iter_notes_nil, List.append_nil] at hp
      exact hp hmem
    · exact ih (sortedNames_tail hs) hflatr hfanr hmem

/-- A hash with a flat entry (and no fanout hit) appears exactly once
among the iterated note keys. -/
theorem count_iter_one (es : List TEntry) (hash : Name) (m0 : Nat)
    (o0 : Obj)
    (hs : sortedNames es = true)
    (hhex : is_hex40 hash = true)
    (hflat : findEntry es hash = some (m0, o0))
    (hfan : find_note_fanout es hash = none) :
    ((iter_notes es).map Prod.fst).count hash = 1 := by
  have hlen : hash.length = 40 := by
    simp only [is_hex40, Bool.and_eq_true, decide_eq_true_eq] at hhex
    exact hhex.1
  induction es with
  | nil => simp [findEntry] at hflat
  | cons f rest ih =>
    obtain ⟨fn, fm, fo⟩ := f
    rw [iter_notes_cons_mk, List.map_append, List.count_append]
    by_cases hf1 : fn = hash
    · have hnot2 : ¬ (fm = MODE_TREE ∧ fn.length = 2) := by
        rintro ⟨_, h2⟩
        rw [hf1] at h2
        omega
      rw [if_neg hnot2, hf1, if_pos hhex]
      have hrest0 : hash ∉ (iter_notes rest).map Prod.fst := by
        refine hash_not_mem_iter rest hash (sortedNames_tail hs) ?_
          (find_note_fanout_tail_none hs hfan)
        rw [← hf1]
        exact findEntry_tail_none hs
      rw [List.count_eq_zero.mpr hrest0]
      simp
    · have hflatr : findEntry rest hash = some (m0, o0) := by
        simpa only [findEntry, if_neg hf1] using hflat
      have hfanr := find_note_fanout_tail_none hs hfan
      rw [ih (sortedNames_tail hs) hflatr hfanr]
      have hp := hash_not_mem_piece hf1 hfan
      rw [iter_notes_cons_mk, iter_notes_nil, List.append_nil] at hp
      rw [List.count_eq_zero.mpr hp]

/-- C5: notes fanout tolerance.  For a hash whose note sits in 2/38
fanout layout (prefix directory `hash.take 2` of tree mode holding the
suffix entry, no flat entry), `get` returns the fanout note; `set`
removes the fanout entry — dropping the prefix directory exactly when
its subtree becomes empty — and inserts a flat blob-mode entry named by
the full hash; afterwards `get` returns the new bytes and `list`
contains the hash exactly once, in ascending byte order. -/
theorem notes_fanout_get_set (ns : NotesNS) (t sub : List TEntry)
    (hash : Name) (m : Nat) (b b2 : Obj)
    (hhex : is_hex40 hash = true)
    (ht : ns.tree = some t)
    (hs : sortedNames t = true)
    (hflat : findEntry t hash = none)
    (hdir : findEntry t (hash.take 2) = some (MODE_TREE, .tree sub))
    (hsub : findEntry sub (hash.drop 2) = some (m, b)) :
    notes_get ns hash = .ok b ∧
    notes_set ns hash b2 = .ok ⟨some (note_write_one t hash b2)⟩ ∧
    findEntry (note_write_one t hash b2) (hash.take 2) =
      (if (builderRemove sub (hash.drop 2)).length = 0 then none
       else some (MODE_TREE, .tree (builderRemove sub (hash.drop 2)))) ∧
    findEntry (note_write_one t hash b2) hash = some (MODE_BLOB, b2) ∧
    notes_get ⟨some (note_write_one t hash b2)⟩ hash = .ok b2 ∧
    (notes_list ⟨some (note_write_one t hash b2)⟩).count hash = 1 ∧
    List.Sorted nameLe (notes_list ⟨some (note_write_one t hash b2)⟩) := by
  have h40 : hash.length = 40 := by
    simp only [is_hex40, Bool.and_eq_true, decide_eq_true_eq] at hhex
    exact hhex.1
  have hbm : MODE_BLOB ≠ MODE_TREE := by decide
  have htkr : hash ≠ hash.take 2 := by
    intro h
    have hlen : hash.length = (hash.take 2).length := by rw [← h]
    rw [List.length_take, h40] at hlen
    omega
  have hget : notes_get ns hash = .ok b := by
    simp only [notes_get, validate_hash, if_pos hhex, ht, find_note, hflat,
      find_note_fanout, hdir, if_pos rfl, hsub, if_true]
  have hset : notes_set ns hash b2 = .ok ⟨some (note_write_one t hash b2)⟩ := by
    simp only [notes_set, validate_hash, if_pos hhex, ht, build_note_tree,
      Option.getD_some, note_deletes, note_writes]
  by_cases hlen0 : (builderRemove sub (hash.drop 2)).length = 0
  · have hw : note_write_one t hash b2 =
        builderInsert (builderRemove t (hash.take 2)) hash MODE_BLOB b2 := by
      simp only [note_write_one, hdir, if_pos rfl, hsub, if_pos hlen0,
        if_true]
    have hd : findEntry (note_write_one t hash b2) (hash.take 2) = none := by
      rw [hw, findEntry_builderInsert_other _ _ _ _ _ htkr,
        findEntry_builderRemove_self]
    have hfe : findEntry (note_write_one t hash b2) hash =
        some (MODE_BLOB, b2) := by
      rw [hw, findEntry_builderInsert_self]
    have hs2 : sortedNames (note_write_one t hash b2) = true := by
      rw [hw]
      exact sortedNames_builderInsert _ _ _ (sortedNames_builderRemove _ hs)
    have hfan2 : find_note_fanout (note_write_one t hash b2) hash = none := by
      simp only [find_note_fanout, hd]
    have hget2 : notes_get ⟨some (note_write_one t hash b2)⟩ hash =
        .ok b2 := by
      simp only [notes_get, validate_hash, if_pos hhex, find_note, hfe,
        if_neg hbm]
    refine ⟨hget, hset, by rw [hd, if_pos hlen0], hfe, hget2, ?_,
      notes_list_sorted _⟩
    show (notes_list ⟨some (note_write_one t hash b2)⟩).count hash = 1
    rw [show notes_list ⟨some (note_write_one t hash b2)⟩ =
      List.insertionSort nameLe
        ((iter_notes (note_write_one t hash b2)).map Prod.fst) from rfl]
    have hperm : (List.insertionSort nameLe
        ((iter_notes (note_write_one t hash b2)).map Prod.fst)).count hash =
        ((iter_notes (note_write_one t hash b2)).map Prod.fst).count hash :=
      (List.perm_insertionSort nameLe _).countP_eq (fun x => x == hash)
    rw [hperm]
    exact count_iter_one _ hash MODE_BLOB b2 hs2 hhex hfe hfan2
  · have hw : note_write_one t hash b2 =
        builderInsert (builderInsert t (hash.take 2) MODE_TREE
          (.tree (builderRemove sub (hash.drop 2)))) hash MODE_BLOB b2 := by
      simp only [note_write_one, hdir, if_pos rfl, hsub, if_neg hlen0,
        if_true]
    have hd : findEntry (note_write_one t hash b2) (hash.take 2) =
        some (MODE_TREE, .tree (builderRemove sub (hash.drop 2))) := by
      rw [hw, findEntry_builderInsert_other _ _ _ _ _ htkr,
        findEntry_builderInsert_self]
    have hfe : findEntry (note_write_one t hash b2) hash =
        some (MODE_BLOB, b2) := by
      rw [hw, findEntry_builderInsert_self]
    have hs2 : sortedNames (note_write_one t hash b2) = true := by
      rw [hw]
      exact sortedNames_builderInsert _ _ _
        (sortedNames_builderInsert _ _ _ hs)
    have hfan2 : find_note_fanout (note_write_one t hash b2) hash = none := by
      simp only [find_note_fanout, hd, if_pos rfl, if_true,
        findEntry_builderRemove_self]
    have hget2 : notes_get ⟨some (note_write_one t hash b2)⟩ hash =
        .ok b2 := by
      simp only [notes_get, validate_hash, if_pos hhex, find_note, hfe,
        if_neg hbm]
    refine ⟨hget, hset, by rw [hd, if_neg hlen0], hfe, hget2, ?_,
      notes_list_sorted _⟩
    show (notes_list ⟨some (note_write_one t hash b2)⟩).count hash = 1
    rw [show notes_list ⟨some (note_write_one t hash b2)⟩ =
      List.insertionSort nameLe
        ((iter_notes (note_write_one t hash b2)).map Prod.fst) from rfl]
    have hperm : (List.insertionSort nameLe
        ((iter_notes (note_write_one t hash b2)).map Prod.fst)).count hash =
        ((iter_notes (note_write_one t hash b2)).map Prod.fst).count hash :=
      (List.perm_insertionSort nameLe _).countP_eq (fun x => x == hash)
    rw [hperm]
    exact count_iter_one _ hash MODE_BLOB b2 hs2 hhex hfe hfan2

/-- Concrete fanout store: prefix directory `aa` with the 38-character
suffix entry. -/
def c5Hash : Name := "aabbbbbbbbbbbbbbbbbbbbbbbbbbbbbbbbbbbbbb".data

def c5Sub : List TEntry := [(c5Hash.drop 2, MODE_BLOB, .blob [7])]

def c5Tree : List TEntry := [("aa".data, MODE_TREE, .tree c5Sub)]

/-- C5 witness: the theorem at the concrete one-note fanout store. -/
theorem notes_fanout_get_set_witness :
    is_hex40 c5Hash = true ∧
    (notes_get ⟨some c5Tree⟩ c5Hash = .ok (.blob [7]) ∧
     notes_set ⟨some c5Tree⟩ c5Hash (.blob [9]) =
       .ok ⟨some (note_write_one c5Tree c5Hash (.blob [9]))⟩ ∧
     findEntry (note_write_one c5Tree c5Hash (.blob [9])) (c5Hash.take 2) =
       (if (builderRemove c5Sub (c5Hash.drop 2)).length = 0 then none
        else some (MODE_TREE, .tree (builderRemove c5Sub (c5Hash.drop 2)))) ∧
     findEntry (note_write_one c5Tree c5Hash (.blob [9])) c5Hash =
       some (MODE_BLOB, .blob [9]) ∧
     notes_get ⟨some (note_write_one c5Tree c5Hash (.blob [9]))⟩ c5Hash =
       .ok (.blob [9]) ∧
     (notes_list ⟨some (note_write_one c5Tree c5Hash (.blob [9]))⟩).count
       c5Hash = 1 ∧
     List.Sorted nameLe
       (notes_list ⟨some (note_write_one c5Tree c5Hash (.blob [9]))⟩)) :=
  ⟨by decide,
   notes_fanout_get_set ⟨some c5Tree⟩ c5Tree c5Sub c5Hash MODE_BLOB
     (.blob [7]) (.blob [9]) (by decide) rfl (by decide) rfl rfl rfl⟩

/-- C9: the claimed ref-name resolution does not exist in the code.
`NoteNamespace::get/set/del/has` call `validate_hash` on the caller key
before anything else, so a key that is not 40 lowercase hex characters —
in particular a branch or tag name such as `main` — raises
`InvalidHashError` instead of being resolved to the ref's tip commit. -/
theorem notes_ref_key_invalid_hash (ns : NotesNS) (key : Name) (b : Obj)
    (h : is_hex40 key = false) :
    notes_get ns key = .error .invalidHash ∧
    notes_set ns key b = .error .invalidHash ∧
    notes_del ns key = .error .invalidHash ∧
    notes_has ns key = .error .invalidHash := by
  refine ⟨?_, ?_, ?_, ?_⟩ <;>
    simp [notes_get, notes_set, notes_del, notes_has, validate_hash, h]

/-- C9 witness: the branch name `main` is rejected by every note
operation with the invalid-hash error. -/
theorem notes_ref_key_invalid_hash_witness :
    is_hex40 "main".data = false ∧
    (notes_get ⟨none⟩ "main".data = .error .invalidHash ∧
     notes_set ⟨none⟩ "main".data (.blob [1]) = .error .invalidHash ∧
     notes_del ⟨none⟩ "main".data = .error .invalidHash ∧
     notes_has ⟨none⟩ "main".data = .error .invalidHash) :=
  ⟨by decide,
   notes_ref_key_invalid_hash ⟨none⟩ "main".data (.blob [1]) (by decide)⟩

end Gitstore
